import Mathlib

/-!
Verification of the dependency-ordered step scheduler from
`src/solutions/day07.py` (Advent of Code 2018, day 7).

The Python code is shallowly embedded:

* `Graph` mirrors the Python `Graph` class: an insertion-ordered adjacency
  list (`Dict[Any, List[Any]]` becomes an association list).  Vertices are
  `String`s, the only vertex type the program ever uses; Python compares
  them with `<`, which matches lexicographic `String` order.
* the `heapq` min-heap of `available` steps is modelled by a list kept in
  ascending order: `heappush` is ordered insertion, `heappop` takes the
  head.  Only the sequence of popped minima is observable, so this is
  faithful.
* the `parent_count` dictionary becomes a total function `String → Int`
  (Python decrements can pass through zero, so `Int`, not `Nat`).
* dictionary lookups that can raise `KeyError` (the `durations` table)
  return `Option`; a failed lookup aborts the simulation with `none`.
* the unbounded `while` loops run on an explicitly sufficient amount of
  fuel.  `specific_topological_sort` pops each pushed element once, so
  vertex count plus edge count always suffices.  For the multi-worker
  loop, fuel exhaustion returns `none`, which also models the
  non-termination of the Python loop on a deadlocked (cyclic) graph.
-/

namespace Day07

/-- The adjacency-list graph of `day07.py`: `_adj_list` maps each vertex to
the ordered list of vertices it unlocks.  Dict insertion order is kept. -/
structure Graph where
  adj_list : List (String × List String)

def Graph.empty : Graph := ⟨[]⟩

/-- The keys of `_adj_list`, in insertion order. -/
def Graph.vertices (g : Graph) : List String :=
  g.adj_list.map Prod.fst

def Graph.hasVertex (g : Graph) (v : String) : Bool :=
  g.adj_list.any (fun p => p.1 == v)

/-- `Graph.add_vertex`: idempotent vertex insertion. -/
def Graph.add_vertex (g : Graph) (v : String) : Graph :=
  if g.hasVertex v then g else ⟨g.adj_list ++ [(v, [])]⟩

/-- `self._adj_list[u]`; on the algorithms' happy path `u` is always a key. -/
def Graph.children (g : Graph) (u : String) : List String :=
  match g.adj_list.find? (fun p => p.1 == u) with
  | some p => p.2
  | none => []

/-- `Graph.add_edge`: insert both endpoints, then append `v` to `u`'s list. -/
def Graph.add_edge (g : Graph) (u v : String) : Graph :=
  let g1 := (g.add_vertex u).add_vertex v
  ⟨g1.adj_list.map (fun p => if p.1 == u then (p.1, p.2 ++ [v]) else p)⟩

def Graph.hasEdge (g : Graph) (u v : String) : Prop :=
  v ∈ g.children u

/-- Structural sanity of a graph as the Python class builds it: keys are
distinct (they are dict keys) and every recorded child is itself a key
(`add_edge` inserts both endpoints). -/
def Graph.Wellformed (g : Graph) : Prop :=
  g.vertices.Nodup ∧ ∀ p ∈ g.adj_list, ∀ c ∈ p.2, c ∈ g.vertices

/-- Number of edge occurrences leading into `v` from rows whose key is not
in `comp`.  With `comp = []` this is the initial `parent_count`; as
completed vertices accumulate in `comp` it is the current count. -/
def remCountRows (comp : List String) (v : String) :
    List (String × List String) → Nat
  | [] => 0
  | p :: rest =>
      (if comp.contains p.1 then 0 else p.2.count v) + remCountRows comp v rest

def Graph.remCount (g : Graph) (comp : List String) (v : String) : Nat :=
  remCountRows comp v g.adj_list

/-- The `parent_count` dict after the two initial loops: one increment per
recorded edge occurrence. -/
def Graph.initCounts (g : Graph) (v : String) : Int :=
  (g.remCount [] v : Int)

/-- Lexicographic strict comparison of character lists by code point:
the order Python uses on `str`. -/
def lexLt : List Char → List Char → Bool
  | [], [] => false
  | [], _ :: _ => true
  | _ :: _, [] => false
  | a :: as, b :: bs =>
      if a.toNat < b.toNat then true
      else if b.toNat < a.toNat then false
      else lexLt as bs

def strLt (a b : String) : Bool := lexLt a.data b.data

def strLe (a b : String) : Bool := !strLt b a

/-- `heapq.heappush` on a heap of strings, modelled on an ascending list. -/
def heapPush (l : List String) (v : String) : List String :=
  match l with
  | [] => [v]
  | x :: xs => if strLe v x then v :: x :: xs else x :: heapPush xs v

/-- `heapq.heapify`, modelled as sorting the seed list. -/
def heapify (l : List String) : List String :=
  l.foldl heapPush []

/-- The inner loop shared by both schedulers:

    for child in self._adj_list[vertex]:
        parent_count[child] -= 1
        if parent_count[child] == 0:
            heapq.heappush(available, child)
-/
def processChildren (counts : String → Int) (ch : List String)
    (avail : List String) : (String → Int) × List String :=
  match ch with
  | [] => (counts, avail)
  | c :: rest =>
      let n := counts c - 1
      let counts1 := fun v => if v = c then n else counts v
      if n = 0 then processChildren counts1 rest (heapPush avail c)
      else processChildren counts1 rest avail

/-- The `while available:` loop of `specific_topological_sort`.  Each
iteration pops the minimum, appends it to `completed` and unlocks its
children.  Every string is pushed at most once, so fuel equal to vertex
count plus edge-occurrence count can never run out before the heap
empties. -/
def sortLoop (g : Graph) : Nat → (String → Int) → List String →
    List String → List String
  | 0, _, _, completed => completed
  | fuel + 1, counts, avail, completed =>
      match avail with
      | [] => completed
      | v :: rest =>
          let pc := processChildren counts (g.children v) rest
          sortLoop g fuel pc.1 pc.2 (completed ++ [v])

/-- Fuel that the single-worker loop can never exhaust: one unit per vertex
plus one per recorded edge occurrence. -/
def Graph.sortFuel (g : Graph) : Nat :=
  g.adj_list.length + (g.adj_list.map (fun p => p.2.length)).sum

/-- `Graph.specific_topological_sort` (day07.py, Part 1 scheduler). -/
def Graph.specific_topological_sort (g : Graph) : List String :=
  let counts := g.initCounts
  let avail := heapify (g.vertices.filter (fun v => counts v == 0))
  sortLoop g g.sortFuel counts avail []

/-- State of the multi-worker simulation between ticks. -/
structure MWState where
  completed : List String
  counts : String → Int
  avail : List String
  progress : List (Option (String × Int))
  time : Int

/-- Phase 1 of a tick: each busy worker slot, in index order, works one
time unit; a slot whose step finishes appends it to `completed`, unlocks
its children and frees the slot. -/
def phase1 (g : Graph) : List (Option (String × Int)) → List String →
    (String → Int) → List String →
    List (Option (String × Int)) × List String × (String → Int) × List String
  | [], completed, counts, avail => ([], completed, counts, avail)
  | none :: rest, completed, counts, avail =>
      let r := phase1 g rest completed counts avail
      (none :: r.1, r.2)
  | some (step, t) :: rest, completed, counts, avail =>
      let t1 := t - 1
      if t1 > 0 then
        let r := phase1 g rest completed counts avail
        (some (step, t1) :: r.1, r.2)
      else
        let completed1 := completed ++ [step]
        let pc := processChildren counts (g.children step) avail
        let r := phase1 g rest completed1 pc.1 pc.2
        (none :: r.1, r.2)

/-- Phase 2 of a tick: each idle slot, in index order, takes the smallest
available step, if any, looking its duration up in the table
(`durations[step]`; a missing key is Python's `KeyError`, here `none`). -/
def phase2 (dur : String → Option Int) : List (Option (String × Int)) →
    List String → Option (List (Option (String × Int)) × List String)
  | [], avail => some ([], avail)
  | none :: rest, avail =>
      match avail with
      | [] => (phase2 dur rest []).map (fun r => (none :: r.1, r.2))
      | v :: arest =>
          match dur v with
          | none => none
          | some d => (phase2 dur rest arest).map (fun r => (some (v, d) :: r.1, r.2))
  | some w :: rest, avail =>
      (phase2 dur rest avail).map (fun r => (some w :: r.1, r.2))

/-- One iteration of the multi-worker `while` loop: increment the clock,
run phase 1, then phase 2. -/
def tick (g : Graph) (dur : String → Option Int) (st : MWState) :
    Option MWState :=
  let r1 := phase1 g st.progress st.completed st.counts st.avail
  match phase2 dur r1.1 r1.2.2.2 with
  | none => none
  | some r2 => some ⟨r1.2.1, r1.2.2.1, r2.2, r2.1, st.time + 1⟩

/-- The `while len(completed) < len(self._adj_list):` loop.  Fuel
exhaustion yields `none`, modelling that the Python loop never returns
(it spins forever on a deadlocked graph). -/
def mwLoop (g : Graph) (dur : String → Option Int) :
    Nat → MWState → Option (List String × Int)
  | 0, _ => none
  | fuel + 1, st =>
      if st.completed.length < g.adj_list.length then
        match tick g dur st with
        | none => none
        | some st1 => mwLoop g dur fuel st1
      else some (st.completed, st.time)

/-- All step names the simulation can ever touch: keys and children. -/
def Graph.allSteps (g : Graph) : List String :=
  g.adj_list.map Prod.fst ++ (g.adj_list.map Prod.snd).foldr (· ++ ·) []

def durNat (dur : String → Option Int) (v : String) : Nat :=
  match dur v with
  | some d => d.toNat
  | none => 0

/-- Fuel sufficient for every terminating run: at most one start-up tick,
one closing tick, and each scheduled step occupies a worker for at most
`1 + duration` ticks while every tick past the first has a busy worker. -/
def Graph.mwFuel (g : Graph) (dur : String → Option Int) : Nat :=
  2 + (g.allSteps.map (fun v => 1 + durNat dur v)).sum

/-- `Graph.multiworker_step_sort` (day07.py, Part 2 scheduler): completion
order plus total elapsed time, or `none` for `KeyError` / divergence. -/
def Graph.multiworker_step_sort (g : Graph) (dur : String → Option Int)
    (workers : Nat := 5) : Option (List String × Int) :=
  let counts := g.initCounts
  let avail := heapify (g.vertices.filter (fun v => counts v == 0))
  mwLoop g dur (g.mwFuel dur)
    ⟨[], counts, avail, List.replicate workers none, -1⟩

/-- `_build_dependency_graph`: fold `add_edge` over the dependency pairs. -/
def build_dependency_graph (deps : List (String × String)) : Graph :=
  deps.foldl (fun g d => g.add_edge d.1 d.2) Graph.empty

/-- `string.ascii_uppercase`, as the list of one-letter step names that
`_get_step_durations` uses by default. -/
def ascii_uppercase : List String :=
  ["A", "B", "C", "D", "E", "F", "G", "H", "I", "J", "K", "L", "M",
   "N", "O", "P", "Q", "R", "S", "T", "U", "V", "W", "X", "Y", "Z"]

/-- `_get_step_durations`: `{step: offset + i for i, step in enumerate(steps)}`. -/
def get_step_durations (steps : List String := ascii_uppercase)
    (offset : Int := 61) : List (String × Int) :=
  steps.enum.map (fun p => (p.2, offset + (p.1 : Int)))

/-- Dict lookup `durations[step]`: `none` is Python's `KeyError`. -/
def lookupDur (tbl : List (String × Int)) (s : String) : Option Int :=
  (tbl.find? (fun p => p.1 == s)).map Prod.snd

/-- A list enumerates `g`'s vertices exactly once and respects every edge:
the output contract of the single-worker scheduler. -/
def IsTopoOrder (g : Graph) (l : List String) : Prop :=
  l.Nodup ∧ (∀ v ∈ g.vertices, v ∈ l) ∧ (∀ v ∈ l, v ∈ g.vertices) ∧
    ∀ u ∈ g.vertices, ∀ v ∈ g.children u, l.indexOf u < l.indexOf v

/-- Acyclicity of a finite graph, expressed by the existence of some
topological enumeration of its vertices. -/
def Graph.Acyclic (g : Graph) : Prop :=
  ∃ l, IsTopoOrder g l

/-- A step with no unresolved prerequisite that has not been emitted yet,
relative to the prefix `comp` of already-completed steps. -/
def eligible (g : Graph) (comp : List String) (w : String) : Prop :=
  w ∈ g.vertices ∧ w ∉ comp ∧ g.remCount comp w = 0

/-- `strLe` as a relation, for sortedness statements. -/
def LeB (a b : String) : Prop := strLe a b = true

instance : DecidableRel LeB :=
  fun a b => decidable_of_iff (strLe a b = true) Iff.rfl

instance (g : Graph) : Decidable g.Wellformed :=
  decidable_of_iff
    (g.vertices.Nodup ∧ ∀ p ∈ g.adj_list, ∀ c ∈ p.2, c ∈ g.vertices) Iff.rfl

instance (g : Graph) (l : List String) : Decidable (IsTopoOrder g l) :=
  decidable_of_iff
    (l.Nodup ∧ (∀ v ∈ g.vertices, v ∈ l) ∧ (∀ v ∈ l, v ∈ g.vertices) ∧
      ∀ u ∈ g.vertices, ∀ v ∈ g.children u, l.indexOf u < l.indexOf v) Iff.rfl

instance (g : Graph) (comp : List String) (w : String) :
    Decidable (eligible g comp w) :=
  decidable_of_iff (w ∈ g.vertices ∧ w ∉ comp ∧ g.remCount comp w = 0) Iff.rfl

/-- Loop invariant of the single-worker scheduler, relating the running
`parent_count` function, the `available` heap and the `completed` prefix:
counts mirror the remaining-edge counts, the heap is an ordered duplicate-free
enumeration of exactly the eligible steps, and the completed prefix is
closed under prerequisites and lists them in dependency order. -/
def Inv (g : Graph) (counts : String → Int) (avail comp : List String) : Prop :=
  (∀ v, counts v = (g.remCount comp v : Int)) ∧
  avail.Pairwise LeB ∧
  (comp ++ avail).Nodup ∧
  (∀ v ∈ comp, v ∈ g.vertices) ∧
  (∀ v ∈ avail, v ∈ g.vertices ∧ g.remCount comp v = 0) ∧
  (∀ v ∈ g.vertices, g.remCount comp v = 0 → v ∈ comp ∨ v ∈ avail) ∧
  (∀ v ∈ comp, g.remCount comp v = 0) ∧
  (∀ u v, g.hasEdge u v → v ∈ comp →
    u ∈ comp ∧ comp.indexOf u < comp.indexOf v)

/-- The steps currently held by busy worker slots, in slot order. -/
def busySteps (prog : List (Option (String × Int))) : List String :=
  prog.filterMap (fun w => w.map Prod.fst)

/-- Invariant of the multi-worker simulation, for any number of workers:
counts mirror remaining-edge counts with respect to the completed list,
the heap is ordered, every step is in at most one of completed / available
/ busy, available and busy steps are eligible (no unresolved
prerequisites), every prerequisite-free vertex is somewhere, and completed
steps have all prerequisites completed. -/
def GInv (g : Graph) (counts : String → Int)
    (avail completed busy : List String) : Prop :=
  (∀ v, counts v = (g.remCount completed v : Int)) ∧
  avail.Pairwise LeB ∧
  (completed ++ avail ++ busy).Nodup ∧
  (∀ v ∈ completed, v ∈ g.vertices) ∧
  (∀ v ∈ avail, v ∈ g.vertices ∧ g.remCount completed v = 0) ∧
  (∀ v ∈ busy, v ∈ g.vertices ∧ g.remCount completed v = 0) ∧
  (∀ v ∈ g.vertices, g.remCount completed v = 0 →
    v ∈ completed ∨ v ∈ avail ∨ v ∈ busy) ∧
  (∀ v ∈ completed, g.remCount completed v = 0)

/-- Total remaining work, used only to size the fuel of the one-worker
simulation: one tick plus the duration of every vertex not yet completed
and distinct from the step currently held by the worker. -/
def pendSum (g : Graph) (dur : String → Option Int) (comp : List String)
    (s : String) : Nat :=
  ((g.vertices.filter (fun v => !(comp.contains v) && !(v == s))).map
    (fun v => 1 + durNat dur v)).sum

/-- The dependency graph of the day-07 worked example and of `_run_tests`:
edges C→A, C→F, A→B, A→D, B→E, D→E, F→E. -/
def testGraph : Graph :=
  build_dependency_graph
    [("C", "A"), ("C", "F"), ("A", "B"), ("A", "D"),
     ("B", "E"), ("D", "E"), ("F", "E")]

/-- A two-vertex cyclic graph: A→B and B→A. -/
def cyclicGraph : Graph :=
  build_dependency_graph [("A", "B"), ("B", "A")]

/-- A diamond-top graph: B and C both depend only on A. -/
def diamondGraph : Graph :=
  build_dependency_graph [("A", "B"), ("A", "C")]

end Day07

namespace Day07

theorem lexLt_irrefl (l : List Char) : lexLt l l = false := by
  induction l with
  | nil => rfl
  | cons a as ih => simp [lexLt, ih]

theorem lexLt_asymm : ∀ {l1 l2 : List Char},
    lexLt l1 l2 = true → lexLt l2 l1 = false := by
  intro l1
  induction l1 with
  | nil =>
      intro l2 h
      cases l2 with
      | nil => simp [lexLt] at h
      | cons b bs => rfl
  | cons a as ih =>
      intro l2 h
      cases l2 with
      | nil => simp [lexLt] at h
      | cons b bs =>
          by_cases hab : a.toNat < b.toNat
          · have hba : ¬ b.toNat < a.toNat := by omega
            simp [lexLt, hba, hab]
          · by_cases hba : b.toNat < a.toNat
            · simp [lexLt, hab, hba] at h
            · have h2 : lexLt as bs = true := by simpa [lexLt, hab, hba] using h
              simp [lexLt, hab, hba, ih h2]

theorem lexLt_neg_trans : ∀ {l1 l2 l3 : List Char},
    lexLt l1 l2 = false → lexLt l2 l3 = false → lexLt l1 l3 = false := by
  intro l1
  induction l1 with
  | nil =>
      intro l2 l3 h12 h23
      cases l2 with
      | nil => exact h23
      | cons b bs => simp [lexLt] at h12
  | cons a as ih =>
      intro l2 l3 h12 h23
      cases l2 with
      | nil =>
          cases l3 with
          | nil => rfl
          | cons c cs => simp [lexLt] at h23
      | cons b bs =>
          cases l3 with
          | nil => rfl
          | cons c cs =>
              by_cases hab : a.toNat < b.toNat
              · simp [lexLt, hab] at h12
              · by_cases hbc : b.toNat < c.toNat
                · simp [lexLt, hbc] at h23
                · by_cases hac : a.toNat < c.toNat
                  · omega
                  · by_cases hca : c.toNat < a.toNat
                    · simp [lexLt, hac, hca]
                    · have hba : ¬ b.toNat < a.toNat := by omega
                      have hcb : ¬ c.toNat < b.toNat := by omega
                      have h12a : lexLt as bs = false := by
                        simpa [lexLt, hab, hba] using h12
                      have h23a : lexLt bs cs = false := by
                        simpa [lexLt, hbc, hcb] using h23
                      simp [lexLt, hac, hca, ih h12a h23a]

theorem strLe_refl (a : String) : strLe a a = true := by
  simp [strLe, strLt, lexLt_irrefl]

theorem strLe_trans {a b c : String} (h1 : strLe a b = true)
    (h2 : strLe b c = true) : strLe a c = true := by
  simp only [strLe, strLt, Bool.not_eq_true'] at h1 h2 ⊢
  exact lexLt_neg_trans h2 h1

theorem strLe_of_not_strLe {a b : String} (h : strLe a b = false) :
    strLe b a = true := by
  simp only [strLe, strLt, Bool.not_eq_false'] at h
  simp only [strLe, strLt, Bool.not_eq_true', lexLt_asymm h]

theorem LeB_trans {a b c : String} (h1 : LeB a b) (h2 : LeB b c) : LeB a c :=
  strLe_trans h1 h2

theorem heapPush_perm (l : List String) (v : String) :
    (heapPush l v).Perm (v :: l) := by
  induction l with
  | nil => exact List.Perm.refl _
  | cons x xs ih =>
      by_cases h : strLe v x = true
      · simp [heapPush, h]
      · simp only [heapPush, h]
        exact ((ih.cons x).trans (List.Perm.swap v x xs))

theorem heapPush_mem {l : List String} {v x : String} :
    x ∈ heapPush l v ↔ x = v ∨ x ∈ l := by
  rw [(heapPush_perm l v).mem_iff]
  simp

theorem heapPush_nodup {l : List String} {v : String} (hn : l.Nodup)
    (hv : v ∉ l) : (heapPush l v).Nodup := by
  rw [(heapPush_perm l v).nodup_iff]
  exact List.nodup_cons.mpr ⟨hv, hn⟩

theorem heapPush_sorted {l : List String} {v : String}
    (hs : l.Pairwise LeB) : (heapPush l v).Pairwise LeB := by
  induction l with
  | nil => simp [heapPush]
  | cons x xs ih =>
      rcases List.pairwise_cons.mp hs with ⟨hx, hxs⟩
      by_cases h : strLe v x = true
      · simp only [heapPush, h, if_true]
        refine List.pairwise_cons.mpr ⟨?_, hs⟩
        intro b hb
        rcases List.mem_cons.mp hb with rfl | hb
        · exact h
        · exact strLe_trans h (hx b hb)
      · simp only [heapPush, h]
        refine List.pairwise_cons.mpr ⟨?_, ih hxs⟩
        intro b hb
        rcases heapPush_mem.mp hb with rfl | hb
        · exact strLe_of_not_strLe (Bool.not_eq_true _ ▸ h)
        · exact hx b hb

theorem heapify_perm (l : List String) : (heapify l).Perm l := by
  have key : ∀ (l acc : List String), (l.foldl heapPush acc).Perm (acc ++ l) := by
    intro l
    induction l with
    | nil => intro acc; simp
    | cons x xs ih =>
        intro acc
        have h1 : (xs.foldl heapPush (heapPush acc x)).Perm (heapPush acc x ++ xs) :=
          ih _
        have h2 : (heapPush acc x ++ xs).Perm ((x :: acc) ++ xs) :=
          (heapPush_perm acc x).append_right xs
        have h3 : ((x :: acc) ++ xs).Perm (acc ++ x :: xs) :=
          List.perm_middle.symm
        exact (h1.trans h2).trans h3
  simpa using key l []

theorem heapify_sorted (l : List String) : (heapify l).Pairwise LeB := by
  have key : ∀ (l acc : List String), acc.Pairwise LeB →
      (l.foldl heapPush acc).Pairwise LeB := by
    intro l
    induction l with
    | nil => intro acc h; exact h
    | cons x xs ih => intro acc h; exact ih _ (heapPush_sorted h)
  exact key l [] (by simp)

end Day07

namespace Day07

theorem vertices_length (g : Graph) : g.vertices.length = g.adj_list.length := by
  simp [Graph.vertices]

theorem children_eq_of_mem {g : Graph} (hk : g.vertices.Nodup)
    {p : String × List String} (hp : p ∈ g.adj_list) : g.children p.1 = p.2 := by
  rcases g with ⟨rows⟩
  simp only [Graph.vertices] at hk
  induction rows with
  | nil => cases hp
  | cons q rest ih =>
      rw [List.map_cons, List.nodup_cons] at hk
      rcases List.mem_cons.mp hp with rfl | hp2
      · simp [Graph.children, List.find?]
      · have hne : q.1 ≠ p.1 := by
          intro he
          exact hk.1 (he ▸ List.mem_map_of_mem Prod.fst hp2)
        have := ih hk.2 hp2
        simpa [Graph.children, List.find?, beq_eq_false_iff_ne.mpr hne] using this

theorem children_eq_nil_of_not_mem {g : Graph} {u : String}
    (hu : u ∉ g.vertices) : g.children u = [] := by
  rcases g with ⟨rows⟩
  simp only [Graph.vertices] at hu
  induction rows with
  | nil => rfl
  | cons q rest ih =>
      have h1 : q.1 ≠ u := by
        intro he; exact hu (by simp [he])
      have h2 : u ∉ rest.map Prod.fst := by
        intro hm; exact hu (by simp [hm])
      simpa [Graph.children, List.find?, beq_eq_false_iff_ne.mpr h1] using ih h2

theorem children_subset {g : Graph} (hw : g.Wellformed) {u c : String}
    (hc : c ∈ g.children u) : c ∈ g.vertices := by
  unfold Graph.children at hc
  rcases hfind : g.adj_list.find? (fun p => p.1 == u) with _ | p
  · rw [hfind] at hc; cases hc
  · rw [hfind] at hc
    exact hw.2 p (List.mem_of_find?_eq_some hfind) c hc

theorem remCountRows_key_not_mem {comp : List String} {v s : String}
    {rows : List (String × List String)} (hs : s ∉ rows.map Prod.fst) :
    remCountRows (comp ++ [s]) v rows = remCountRows comp v rows := by
  induction rows with
  | nil => rfl
  | cons p rest ih =>
      have h1 : p.1 ≠ s := by
        intro he; exact hs (by simp [he])
      have h2 : s ∉ rest.map Prod.fst := by
        intro hm; exact hs (by simp [hm])
      simp [remCountRows, ih h2, h1]

theorem remCount_append {g : Graph} (hk : g.vertices.Nodup) {comp : List String}
    {s : String} (hs : s ∉ comp) (v : String) :
    (g.children s).count v ≤ g.remCount comp v ∧
      g.remCount (comp ++ [s]) v = g.remCount comp v - (g.children s).count v := by
  rcases g with ⟨rows⟩
  simp only [Graph.vertices] at hk
  simp only [Graph.remCount]
  induction rows with
  | nil =>
      constructor
      · simp [Graph.children, List.find?, remCountRows]
      · rfl
  | cons p rest ih =>
      rw [List.map_cons, List.nodup_cons] at hk
      by_cases hps : p.1 = s
      · have hch : Graph.children ⟨p :: rest⟩ s = p.2 := by
          simp [Graph.children, List.find?, hps]
        have hrest : remCountRows (comp ++ [s]) v rest = remCountRows comp v rest :=
          remCountRows_key_not_mem (hps ▸ hk.1)
        have hmemc : p.1 ∉ comp := hps ▸ hs
        have hcc : comp.contains p.1 = false := by simpa using hmemc
        rw [hch]
        constructor
        · simp only [remCountRows, hcc, Bool.false_eq_true, if_false]
          omega
        · simp only [remCountRows, hrest]
          simp only [hcc]
          simp [hps, hs]
      · rcases ih hk.2 with ⟨ihle, iheq⟩
        have hch : Graph.children ⟨p :: rest⟩ s = Graph.children ⟨rest⟩ s := by
          simp [Graph.children, List.find?, beq_eq_false_iff_ne.mpr hps]
        rw [hch]
        constructor
        · simp only [remCountRows]
          omega
        · simp only [remCountRows]
          have hifeq : (if p.1 ∈ comp ++ [s] then 0 else p.2.count v)
              = if p.1 ∈ comp then 0 else p.2.count v := by
            simp [hps]
          have hcontains : ((comp ++ [s]).contains p.1 = true)
              = (comp.contains p.1 = true) := by
            simp [hps]
          rw [show ((comp ++ [s]).contains p.1) = (comp.contains p.1) by
            by_cases hx : comp.contains p.1 = true <;> simp_all [hps]]
          omega

theorem remCount_ne_zero_iff {g : Graph} {comp : List String} {v : String} :
    g.remCount comp v ≠ 0 ↔
      ∃ p ∈ g.adj_list, p.1 ∉ comp ∧ v ∈ p.2 := by
  rcases g with ⟨rows⟩
  simp only [Graph.remCount]
  induction rows with
  | nil => simp [remCountRows]
  | cons p rest ih =>
      simp only [remCountRows]
      by_cases hm : p.1 ∈ comp
      · rw [if_pos (by simpa using hm)]
        simp only [Nat.zero_add]
        rw [ih]
        constructor
        · rintro ⟨q, hq, h1, h2⟩; exact ⟨q, List.mem_cons_of_mem p hq, h1, h2⟩
        · rintro ⟨q, hq, h1, h2⟩
          rcases List.mem_cons.mp hq with rfl | hq2
          · exact absurd hm h1
          · exact ⟨q, hq2, h1, h2⟩
      · rw [if_neg (by simpa using hm)]
        constructor
        · intro h
          by_cases hv : v ∈ p.2
          · exact ⟨p, List.mem_cons_self p rest, hm, hv⟩
          · have hz : p.2.count v = 0 := List.count_eq_zero.mpr hv
            rw [hz, Nat.zero_add] at h
            rcases ih.mp h with ⟨q, hq, h1, h2⟩
            exact ⟨q, List.mem_cons_of_mem p hq, h1, h2⟩
        · rintro ⟨q, hq, h1, h2⟩
          rcases List.mem_cons.mp hq with rfl | hq2
          · have hpos : 0 < q.2.count v := List.count_pos_iff.mpr h2
            omega
          · have hne : remCountRows comp v rest ≠ 0 := ih.mpr ⟨q, hq2, h1, h2⟩
            omega

theorem remCount_pos_of_edge {g : Graph} (hk : g.vertices.Nodup)
    {comp : List String} {u v : String} (hu : u ∈ g.vertices)
    (hunc : u ∉ comp) (he : v ∈ g.children u) : g.remCount comp v ≠ 0 := by
  rcases List.mem_map.mp hu with ⟨p, hp, hp1⟩
  refine remCount_ne_zero_iff.mpr ⟨p, hp, ?_, ?_⟩
  · rw [hp1]; exact hunc
  · have hce := children_eq_of_mem hk hp
    rw [hp1] at hce
    rw [hce] at he
    exact he

end Day07

namespace Day07

/-- Full behaviour of the shared child-processing loop under the conditions
in which the schedulers invoke it: every child still has at least as many
pending edge occurrences as appear in the processed list, and the heap only
holds steps whose count is exhausted.  The loop subtracts the occurrence
multiset from the counts and pushes exactly the children whose count
reaches zero. -/
theorem processChildren_spec :
    ∀ (ch : List String) (counts : String → Int) (avail : List String),
    (∀ x ∈ ch, (ch.count x : Int) ≤ counts x) →
    (∀ x ∈ avail, counts x ≤ 0) →
    avail.Pairwise LeB → avail.Nodup →
    (∀ v, (processChildren counts ch avail).1 v = counts v - (ch.count v : Int)) ∧
    (∀ x, x ∈ (processChildren counts ch avail).2 ↔
        x ∈ avail ∨ (x ∈ ch ∧ counts x = (ch.count x : Int))) ∧
    (processChildren counts ch avail).2.Pairwise LeB ∧
    (processChildren counts ch avail).2.Nodup ∧
    (∀ x ∈ (processChildren counts ch avail).2,
      (processChildren counts ch avail).1 x ≤ 0) := by
  intro ch
  induction ch with
  | nil =>
      intro counts avail hcnt hav hsort hnd
      refine ⟨by simp [processChildren], by simp [processChildren], ?_, ?_, ?_⟩
      · simpa [processChildren] using hsort
      · simpa [processChildren] using hnd
      · simpa [processChildren] using hav
  | cons c rest ih =>
      intro counts avail hcnt hav hsort hnd
      have hcountc : ((c :: rest).count c : Int) = 1 + (rest.count c : Int) := by
        rw [List.count_cons_self]; push_cast; ring
      have hcnt_c := hcnt c (List.mem_cons_self c rest)
      by_cases hn : counts c - 1 = 0
      · -- the head child reaches count zero and is pushed
        have hcc1 : counts c = 1 := by omega
        have hrestc : rest.count c = 0 := by
          have : (1 : Int) + (rest.count c : Int) ≤ 1 := by
            rw [← hcountc, ← hcc1] at *; exact hcnt_c
          omega
        have hcnotrest : c ∉ rest := List.count_eq_zero.mp hrestc
        have hcnotavail : c ∉ avail := by
          intro hmem
          have := hav c hmem
          omega
        have heq : processChildren counts (c :: rest) avail
            = processChildren (fun v => if v = c then counts c - 1 else counts v)
                rest (heapPush avail c) := by
          simp only [processChildren, hn, if_true]
        rw [heq]
        set counts1 := fun v => if v = c then counts c - 1 else counts v with hc1
        have hcnt1 : ∀ x ∈ rest, (rest.count x : Int) ≤ counts1 x := by
          intro x hx
          have hxc : x ≠ c := fun h => hcnotrest (h ▸ hx)
          have : rest.count x = (c :: rest).count x := by
            rw [List.count_cons_of_ne hxc]
          rw [this]
          simpa [hc1, hxc] using hcnt x (List.mem_cons_of_mem c hx)
        have hav1 : ∀ x ∈ heapPush avail c, counts1 x ≤ 0 := by
          intro x hx
          rcases heapPush_mem.mp hx with rfl | hx2
          · simp [hc1, hn]
          · have hxc : x ≠ c := fun h => hcnotavail (h ▸ hx2)
            simpa [hc1, hxc] using hav x hx2
        rcases ih counts1 (heapPush avail c) hcnt1 hav1
            (heapPush_sorted hsort) (heapPush_nodup hnd hcnotavail) with
          ⟨ihcounts, ihmem, ihsort, ihnd, ihav⟩
        refine ⟨?_, ?_, ihsort, ihnd, ihav⟩
        · intro v
          rw [ihcounts v]
          by_cases hvc : v = c
          · subst hvc
            simp [hc1, hrestc, hcountc]
          · rw [List.count_cons_of_ne hvc]
            simp [hc1, hvc]
        · intro x
          rw [ihmem x]
          constructor
          · rintro (hx | ⟨hx1, hx2⟩)
            · rcases heapPush_mem.mp hx with hxc | hx2
              · rw [hxc]
                exact Or.inr ⟨List.mem_cons_self c rest, by rw [hcountc]; omega⟩
              · exact Or.inl hx2
            · have hxc : x ≠ c := fun h => hcnotrest (h ▸ hx1)
              refine Or.inr ⟨List.mem_cons_of_mem c hx1, ?_⟩
              rw [List.count_cons_of_ne hxc]
              simpa [hc1, hxc] using hx2
          · rintro (hx | ⟨hx1, hx2⟩)
            · exact Or.inl (heapPush_mem.mpr (Or.inr hx))
            · by_cases hxc : x = c
              · exact Or.inl (heapPush_mem.mpr (Or.inl hxc))
              · have hx3 : x ∈ rest := by
                  rcases List.mem_cons.mp hx1 with h | h
                  · exact absurd h hxc
                  · exact h
                refine Or.inr ⟨hx3, ?_⟩
                rw [List.count_cons_of_ne hxc] at hx2
                simpa [hc1, hxc] using hx2
      · -- the head child still has pending prerequisites
        have heq : processChildren counts (c :: rest) avail
            = processChildren (fun v => if v = c then counts c - 1 else counts v)
                rest avail := by
          simp only [processChildren, hn, if_false]
        rw [heq]
        set counts1 := fun v => if v = c then counts c - 1 else counts v with hc1
        have hcnt1 : ∀ x ∈ rest, (rest.count x : Int) ≤ counts1 x := by
          intro x hx
          by_cases hxc : x = c
          · subst hxc
            have : (rest.count x : Int) = ((x :: rest).count x : Int) - 1 := by
              rw [List.count_cons_self]; push_cast; ring
            rw [this]
            simp only [hc1, if_pos rfl]
            omega
          · have : rest.count x = (c :: rest).count x := by
              rw [List.count_cons_of_ne hxc]
            rw [this]
            simpa [hc1, hxc] using hcnt x (List.mem_cons_of_mem c hx)
        have hav1 : ∀ x ∈ avail, counts1 x ≤ 0 := by
          intro x hx
          by_cases hxc : x = c
          · subst hxc
            have := hav x hx
            simp only [hc1, if_pos rfl]
            omega
          · simpa [hc1, hxc] using hav x hx
        rcases ih counts1 avail hcnt1 hav1 hsort hnd with
          ⟨ihcounts, ihmem, ihsort, ihnd, ihav⟩
        refine ⟨?_, ?_, ihsort, ihnd, ihav⟩
        · intro v
          rw [ihcounts v]
          by_cases hvc : v = c
          · subst hvc
            rw [List.count_cons_self]
            simp only [hc1, if_pos rfl]
            push_cast
            ring
          · rw [List.count_cons_of_ne hvc]
            simp [hc1, hvc]
        · intro x
          rw [ihmem x]
          constructor
          · rintro (hx | ⟨hx1, hx2⟩)
            · exact Or.inl hx
            · by_cases hxc : x = c
              · subst hxc
                refine Or.inr ⟨List.mem_cons_self x rest, ?_⟩
                simp only [hc1, if_pos rfl] at hx2
                rw [List.count_cons_self]
                push_cast
                omega
              · refine Or.inr ⟨List.mem_cons_of_mem c hx1, ?_⟩
                rw [List.count_cons_of_ne hxc]
                simpa [hc1, hxc] using hx2
          · rintro (hx | ⟨hx1, hx2⟩)
            · exact Or.inl hx
            · by_cases hxc : x = c
              · subst hxc
                have hxrest : x ∈ rest := by
                  by_contra hxr
                  have : rest.count x = 0 := List.count_eq_zero.mpr hxr
                  rw [List.count_cons_self, this] at hx2
                  simp at hx2
                  omega
                refine Or.inr ⟨hxrest, ?_⟩
                simp only [hc1, if_pos rfl]
                rw [List.count_cons_self] at hx2
                push_cast at hx2 ⊢
                omega
              · have hx3 : x ∈ rest := by
                  rcases List.mem_cons.mp hx1 with h | h
                  · exact absurd h hxc
                  · exact h
                refine Or.inr ⟨hx3, ?_⟩
                rw [List.count_cons_of_ne hxc] at hx2
                simpa [hc1, hxc] using hx2

end Day07

namespace Day07

/-- Popping the head of the heap and processing its children preserves the
single-worker invariant, with the popped step appended to `completed`. -/
theorem Inv_step {g : Graph} (hw : g.Wellformed) {counts : String → Int}
    {s : String} {rest comp : List String}
    (hinv : Inv g counts (s :: rest) comp) :
    Inv g (processChildren counts (g.children s) rest).1
      (processChildren counts (g.children s) rest).2 (comp ++ [s]) := by
  obtain ⟨hc, hsort, hnd, hcompV, havail, hcover, hcompdone, horder⟩ := hinv
  have hsV : s ∈ g.vertices := (havail s (List.mem_cons_self s rest)).1
  have hsrc : g.remCount comp s = 0 := (havail s (List.mem_cons_self s rest)).2
  have hndparts := List.nodup_append.mp hnd
  have hcompnd : comp.Nodup := hndparts.1
  have hsrestnd : (s :: rest).Nodup := hndparts.2.1
  have hdisj : ∀ x ∈ comp, x ∉ s :: rest := hndparts.2.2
  have hsnc : s ∉ comp := fun h => (hdisj s h) (List.mem_cons_self s rest)
  have hsnr : s ∉ rest := (List.nodup_cons.mp hsrestnd).1
  have hrc := fun v => remCount_append (g := g) hw.1 hsnc v
  have hcnt : ∀ x ∈ g.children s, ((g.children s).count x : Int) ≤ counts x := by
    intro x hx
    rw [hc x]
    exact_mod_cast (hrc x).1
  have hav : ∀ x ∈ rest, counts x ≤ 0 := by
    intro x hx
    rw [hc x, (havail x (List.mem_cons_of_mem s hx)).2]
    simp
  have hsort2 : rest.Pairwise LeB := (List.pairwise_cons.mp hsort).2
  have hrestnd : rest.Nodup := (List.nodup_cons.mp hsrestnd).2
  obtain ⟨pcounts, pmem, psort, pnd, pav⟩ :=
    processChildren_spec (g.children s) counts rest hcnt hav hsort2 hrestnd
  have comp1 : ∀ v, (processChildren counts (g.children s) rest).1 v
      = (g.remCount (comp ++ [s]) v : Int) := by
    intro v
    rw [pcounts v, hc v, (hrc v).2]
    exact (Nat.cast_sub (hrc v).1).symm
  have hpushedrc : ∀ x, x ∈ (processChildren counts (g.children s) rest).2 →
      x ∈ g.vertices ∧ g.remCount (comp ++ [s]) x = 0 := by
    intro x hx
    rcases (pmem x).mp hx with hx2 | ⟨hx2, hx3⟩
    · have h1 := havail x (List.mem_cons_of_mem s hx2)
      refine ⟨h1.1, ?_⟩
      rw [(hrc x).2, h1.2]
      simp
    · refine ⟨children_subset hw hx2, ?_⟩
      have hcx : g.remCount comp x = (g.children s).count x := by
        have h4 := hx3
        rw [hc x] at h4
        exact_mod_cast h4
      rw [(hrc x).2, hcx]
      simp
  refine ⟨comp1, psort, ?_, ?_, hpushedrc, ?_, ?_, ?_⟩
  · -- Nodup
    rw [List.nodup_append]
    refine ⟨?_, pnd, ?_⟩
    · rw [List.nodup_append]
      refine ⟨hcompnd, List.nodup_singleton s, ?_⟩
      intro x hx hxs
      rw [List.mem_singleton] at hxs
      exact hsnc (hxs ▸ hx)
    · intro x hx hx2
      rcases (pmem x).mp hx2 with hx3 | ⟨hx3, hx4⟩
      · rcases List.mem_append.mp hx with h | h
        · exact (hdisj x h) (List.mem_cons_of_mem s hx3)
        · rw [List.mem_singleton] at h
          exact hsnr (h ▸ hx3)
      · have hpos : 0 < (g.children s).count x := List.count_pos_iff.mpr hx3
        have hrcx : g.remCount comp x ≠ 0 := by
          have h5 := hx4
          rw [hc x] at h5
          have : g.remCount comp x = (g.children s).count x := by exact_mod_cast h5
          omega
        rcases List.mem_append.mp hx with h | h
        · exact hrcx (hcompdone x h)
        · rw [List.mem_singleton] at h
          exact hrcx (h ▸ hsrc)
  · -- completed steps are vertices
    intro v hv
    rcases List.mem_append.mp hv with h | h
    · exact hcompV v h
    · rw [List.mem_singleton] at h
      exact h ▸ hsV
  · -- coverage of zero-count vertices
    intro v hvV hrc0
    by_cases hv0 : g.remCount comp v = 0
    · rcases hcover v hvV hv0 with h | h
      · exact Or.inl (List.mem_append_left _ h)
      · rcases List.mem_cons.mp h with h2 | h2
        · exact Or.inl (List.mem_append_right _ (by simp [h2]))
        · exact Or.inr ((pmem v).mpr (Or.inl h2))
    · have hle := (hrc v).1
      have heq2 : (g.children s).count v = g.remCount comp v := by
        rw [(hrc v).2] at hrc0
        omega
      have hvch : v ∈ g.children s :=
        List.count_pos_iff.mp (by omega)
      refine Or.inr ((pmem v).mpr (Or.inr ⟨hvch, ?_⟩))
      rw [hc v]
      exact_mod_cast heq2.symm
  · -- completed steps have no remaining prerequisites
    intro v hv
    rcases List.mem_append.mp hv with h | h
    · rw [(hrc v).2, hcompdone v h]
      simp
    · rw [List.mem_singleton] at h
      subst h
      rw [(hrc v).2, hsrc]
      simp
  · -- dependency order inside the completed prefix
    intro u v he hv
    rcases List.mem_append.mp hv with h | h
    · obtain ⟨h1, h2⟩ := horder u v he h
      refine ⟨List.mem_append_left _ h1, ?_⟩
      rw [List.indexOf_append_of_mem h1, List.indexOf_append_of_mem h]
      exact h2
    · rw [List.mem_singleton] at h
      subst h
      have he2 : v ∈ g.children u := he
      have huV : u ∈ g.vertices := by
        by_contra hu
        rw [children_eq_nil_of_not_mem hu] at he2
        cases he2
      have hucomp : u ∈ comp := by
        by_contra hunc
        exact (remCount_pos_of_edge hw.1 huV hunc he2) hsrc
      refine ⟨List.mem_append_left _ hucomp, ?_⟩
      rw [List.indexOf_append_of_mem hucomp,
        List.indexOf_append_of_not_mem hsnc]
      have hlt : comp.indexOf u < comp.length := List.indexOf_lt_length.mpr hucomp
      simp
      omega

end Day07

namespace Day07

theorem mem_of_nodup_subset_length {l V : List String} (hnd : l.Nodup)
    (hsub : ∀ x ∈ l, x ∈ V) (hlen : V.length ≤ l.length) :
    ∀ v ∈ V, v ∈ l := by
  intro v hv
  by_contra hvl
  have hsub2 : l ⊆ V.erase v := by
    intro x hx
    have hxv : x ≠ v := fun h => hvl (h ▸ hx)
    exact (List.mem_erase_of_ne hxv).mpr (hsub x hx)
  have hle : l.length ≤ (V.erase v).length :=
    (List.subperm_of_subset hnd hsub2).length_le
  rw [List.length_erase_of_mem hv] at hle
  have hpos : 0 < V.length := List.length_pos_of_mem hv
  omega

theorem Inv_final_of_empty {g : Graph} {counts : String → Int}
    {comp : List String} (hinv : Inv g counts [] comp) :
    Inv g (fun v => (g.remCount comp v : Int)) [] comp := by
  obtain ⟨hc, hsort, hnd, hcompV, havail, hcover, hcompdone, horder⟩ := hinv
  exact ⟨fun v => rfl, hsort, hnd, hcompV, havail, hcover, hcompdone, horder⟩

/-- Master lemma for the `while available:` loop, by induction on fuel.
Given the invariant and enough fuel, the result extends `completed`, the
invariant holds at the final state with an empty heap, and each emitted
step is lexicographically least among the steps eligible at its point of
emission. -/
theorem sortLoop_spec {g : Graph} (hw : g.Wellformed) :
    ∀ (fuel : Nat) (counts : String → Int) (avail comp : List String),
      Inv g counts avail comp →
      g.adj_list.length ≤ fuel + comp.length →
      (sortLoop g fuel counts avail comp).take comp.length = comp ∧
      Inv g (fun v => (g.remCount (sortLoop g fuel counts avail comp) v : Int))
        [] (sortLoop g fuel counts avail comp) ∧
      ∀ i, ∀ hlt : i < (sortLoop g fuel counts avail comp).length,
        comp.length ≤ i →
        ∀ w, eligible g ((sortLoop g fuel counts avail comp).take i) w →
        LeB ((sortLoop g fuel counts avail comp).get ⟨i, hlt⟩) w := by
  intro fuel
  induction fuel with
  | zero =>
      intro counts avail comp hinv hfuel
      have hVlen : g.vertices.length = g.adj_list.length := vertices_length g
      obtain ⟨hc, hsort, hnd, hcompV, havail, hcover, hcompdone, horder⟩ := hinv
      have hcompnd : comp.Nodup := hnd.of_append_left
      have hfull : ∀ v ∈ g.vertices, v ∈ comp :=
        mem_of_nodup_subset_length hcompnd hcompV (by omega)
      have hempty : avail = [] := by
        rw [List.eq_nil_iff_forall_not_mem]
        intro x hx
        have hxc : x ∈ comp := hfull x (havail x hx).1
        exact (List.disjoint_of_nodup_append hnd) hxc hx
      subst hempty
      refine ⟨List.take_length _, ?_, ?_⟩
      · exact Inv_final_of_empty ⟨hc, hsort, hnd, hcompV, havail, hcover,
          hcompdone, horder⟩
      · intro i hlt hge w hel
        simp only [sortLoop] at hlt
        omega
  | succ fuel ih =>
      intro counts avail comp hinv hfuel
      cases avail with
      | nil =>
          refine ⟨List.take_length _, ?_, ?_⟩
          · exact Inv_final_of_empty hinv
          · intro i hlt hge w hel
            simp only [sortLoop] at hlt
            omega
      | cons s rest =>
          have hinv2 := Inv_step hw hinv
          have hfuel2 : g.adj_list.length ≤ fuel + (comp ++ [s]).length := by
            simp only [List.length_append, List.length_singleton]
            omega
          obtain ⟨ihpre, ihinv, ihtrace⟩ :=
            ih (processChildren counts (g.children s) rest).1
              (processChildren counts (g.children s) rest).2 (comp ++ [s])
              hinv2 hfuel2
          have hreq : sortLoop g (fuel + 1) counts (s :: rest) comp
              = sortLoop g fuel (processChildren counts (g.children s) rest).1
                  (processChildren counts (g.children s) rest).2 (comp ++ [s]) := by
            simp only [sortLoop]
          rw [hreq] at *
          set r := sortLoop g fuel (processChildren counts (g.children s) rest).1
            (processChildren counts (g.children s) rest).2 (comp ++ [s]) with hr
          have hpre1 : r.take (comp.length + 1) = comp ++ [s] := by
            simpa [List.length_append] using ihpre
          have hpre0 : r.take comp.length = comp := by
            have h2 : (r.take (comp.length + 1)).take comp.length = r.take comp.length := by
              rw [List.take_take]
              congr 1
              omega
            rw [← h2, hpre1, List.take_left]
          have hrlen : comp.length + 1 ≤ r.length := by
            have h3 : (r.take (comp.length + 1)).length = comp.length + 1 := by
              rw [hpre1]
              simp
            have h4 := List.length_take (comp.length + 1) r
            omega
          refine ⟨hpre0, ihinv, ?_⟩
          intro i hlt hge w hel
          by_cases hi : comp.length + 1 ≤ i
          · exact ihtrace i hlt (by simpa using hi) w hel
          · have hieq : i = comp.length := by omega
            subst hieq
            have hels : eligible g comp w := by
              rw [hpre0] at hel
              exact hel
            obtain ⟨hc, hsort, hnd, hcompV, havail, hcover, hcompdone, horder⟩ := hinv
            have hwmem : w ∈ s :: rest := by
              rcases hcover w hels.1 hels.2.2 with h | h
              · exact absurd h hels.2.1
              · exact h
            have hles : LeB s w := by
              rcases List.mem_cons.mp hwmem with h | h
              · rw [h]
                exact strLe_refl s
              · exact (List.pairwise_cons.mp hsort).1 w h
            have hgets : r.get ⟨comp.length, hlt⟩ = s := by
              have h5 : (r.take (comp.length + 1)).get
                  ⟨comp.length, by rw [hpre1]; simp⟩ = s := by
                have h6 := List.get_of_eq hpre1 ⟨comp.length, by rw [hpre1]; simp⟩
                rw [h6]
                simp
              simpa [List.getElem_take] using h5
            rw [hgets]
            exact hles

end Day07

namespace Day07

/-- The invariant holds at the entry of the single-worker loop. -/
theorem Inv_initial {g : Graph} (hw : g.Wellformed) :
    Inv g g.initCounts
      (heapify (g.vertices.filter (fun v => g.initCounts v == 0))) [] := by
  refine ⟨fun v => rfl, heapify_sorted _, ?_, ?_, ?_, ?_, ?_, ?_⟩
  · rw [List.nil_append]
    exact ((heapify_perm _).nodup_iff).mpr (hw.1.filter _)
  · intro v hv
    cases hv
  · intro v hv
    have hv2 := (heapify_perm _).mem_iff.mp hv
    have hv3 := List.mem_filter.mp hv2
    refine ⟨hv3.1, ?_⟩
    have hv4 : g.initCounts v = 0 := by simpa using hv3.2
    unfold Graph.initCounts at hv4
    exact_mod_cast hv4
  · intro v hvV h0
    refine Or.inr ((heapify_perm _).mem_iff.mpr (List.mem_filter.mpr ⟨hvV, ?_⟩))
    simp [Graph.initCounts, h0]
  · intro v hv
    cases hv
  · intro u v he hv
    cases hv

/-- If the final state has an empty heap, acyclicity forces every vertex to
have been completed: otherwise some unfinished vertex of least topological
index would have an unfinished prerequisite of smaller index. -/
theorem complete_of_acyclic {g : Graph} (hw : g.Wellformed) {l : List String}
    (hl : IsTopoOrder g l) {counts : String → Int} {r : List String}
    (hinv : Inv g counts [] r) : ∀ v ∈ g.vertices, v ∈ r := by
  obtain ⟨hc, hsort, hnd, hrV, havail, hcover, hdone, horder⟩ := hinv
  have main : ∀ n, ∀ v ∈ g.vertices, l.indexOf v < n → v ∈ r := by
    intro n
    induction n with
    | zero =>
        intro v hv h
        omega
    | succ n ihn =>
        intro v hv hlt
        by_cases hvr : v ∈ r
        · exact hvr
        · exfalso
          have hrc : g.remCount r v ≠ 0 := by
            intro h0
            rcases hcover v hv h0 with h | h
            · exact hvr h
            · cases h
          rcases remCount_ne_zero_iff.mp hrc with ⟨p, hp, hp1, hp2⟩
          have huV : p.1 ∈ g.vertices := List.mem_map_of_mem Prod.fst hp
          have hedge : v ∈ g.children p.1 := by
            rw [children_eq_of_mem hw.1 hp]
            exact hp2
          have huv : l.indexOf p.1 < l.indexOf v := hl.2.2.2 p.1 huV v hedge
          exact hp1 (ihn p.1 huV (by omega))
  intro v hv
  exact main (l.indexOf v + 1) v hv (by omega)

/-- `sortLoop_spec` instantiated at the call site inside
`specific_topological_sort`. -/
theorem specific_sort_spec {g : Graph} (hw : g.Wellformed) :
    Inv g (fun v => (g.remCount g.specific_topological_sort v : Int)) []
        g.specific_topological_sort ∧
      ∀ i, ∀ hlt : i < g.specific_topological_sort.length,
        ∀ w, eligible g (g.specific_topological_sort.take i) w →
        LeB (g.specific_topological_sort.get ⟨i, hlt⟩) w := by
  have hfuel : g.adj_list.length ≤ g.sortFuel + ([] : List String).length := by
    unfold Graph.sortFuel
    simp
  obtain ⟨hpre, hinv, htrace⟩ :=
    sortLoop_spec hw g.sortFuel g.initCounts
      (heapify (g.vertices.filter (fun v => g.initCounts v == 0))) []
      (Inv_initial hw) hfuel
  have heq : g.specific_topological_sort
      = sortLoop g g.sortFuel g.initCounts
          (heapify (g.vertices.filter (fun v => g.initCounts v == 0))) [] := rfl
  rw [heq]
  exact ⟨hinv, fun i hlt w hel => htrace i hlt (by simp) w hel⟩

end Day07

namespace Day07

/-- Phase 2 cannot fail when every available step has a duration entry. -/
theorem phase2_total (dur : String → Option Int) :
    ∀ (prog : List (Option (String × Int))) (avail : List String),
      (∀ w ∈ avail, (dur w).isSome) →
      ∃ r, phase2 dur prog avail = some r := by
  intro prog
  induction prog with
  | nil =>
      intro avail hav
      exact ⟨([], avail), rfl⟩
  | cons w ps ih =>
      intro avail hav
      cases w with
      | none =>
          cases avail with
          | nil =>
              rcases ih [] (by simp) with ⟨r, hr⟩
              exact ⟨(none :: r.1, r.2), by simp [phase2, hr]⟩
          | cons v arest =>
              rcases Option.isSome_iff_exists.mp
                (hav v (List.mem_cons_self v arest)) with ⟨d, hd⟩
              rcases ih arest (fun x hx => hav x (List.mem_cons_of_mem v hx)) with
                ⟨r, hr⟩
              exact ⟨(some (v, d) :: r.1, r.2), by simp [phase2, hd, hr]⟩
      | some w2 =>
          rcases ih avail hav with ⟨r, hr⟩
          exact ⟨(some w2 :: r.1, r.2), by simp [phase2, hr]⟩

/-- Phase 2 gives the head of the ordered heap - the smallest available
step - to the lowest-index idle worker slot. -/
theorem phase2_assigns_min (dur : String → Option Int) :
    ∀ (prog : List (Option (String × Int))) (idx : Nat) (v : String)
      (rest : List String) (d : Int),
      (v :: rest).Pairwise LeB →
      (∀ w ∈ v :: rest, (dur w).isSome) →
      dur v = some d →
      prog.get? idx = some none →
      (∀ j, j < idx → prog.get? j ≠ some none) →
      ∃ r, phase2 dur prog (v :: rest) = some r ∧
        r.1.get? idx = some (some (v, d)) ∧
        ∀ w ∈ v :: rest, LeB v w := by
  intro prog
  induction prog with
  | nil =>
      intro idx v rest d hsort hav hd hidx hbefore
      simp at hidx
  | cons w ps ih =>
      intro idx v rest d hsort hav hd hidx hbefore
      have hmin : ∀ w ∈ v :: rest, LeB v w := by
        intro x hx
        rcases List.mem_cons.mp hx with h | h
        · rw [h]; exact strLe_refl v
        · exact (List.pairwise_cons.mp hsort).1 x h
      cases w with
      | none =>
          have hidx0 : idx = 0 := by
            by_contra hne
            exact hbefore 0 (by omega) rfl
          subst hidx0
          rcases phase2_total dur ps rest
            (fun x hx => hav x (List.mem_cons_of_mem v hx)) with ⟨r, hr⟩
          exact ⟨(some (v, d) :: r.1, r.2), by simp [phase2, hd, hr], rfl, hmin⟩
      | some w2 =>
          have hidxpos : idx ≠ 0 := by
            intro h0
            rw [h0] at hidx
            simp at hidx
          rcases Nat.exists_eq_succ_of_ne_zero hidxpos with ⟨k, rfl⟩
          have hidx2 : ps.get? k = some none := by simpa using hidx
          have hbefore2 : ∀ j, j < k → ps.get? j ≠ some none := by
            intro j hj
            have := hbefore (j + 1) (by omega)
            simpa using this
          rcases ih k v rest d hsort hav hd hidx2 hbefore2 with ⟨r, hr, hget, _⟩
          refine ⟨(some w2 :: r.1, r.2), by simp [phase2, hr], ?_, hmin⟩
          simpa using hget

end Day07

namespace Day07

theorem phase1_nones (g : Graph) :
    ∀ (k : Nat) (completed : List String) (counts : String → Int)
      (avail : List String),
      phase1 g (List.replicate k none) completed counts avail
        = (List.replicate k none, completed, counts, avail) := by
  intro k
  induction k with
  | zero => intro completed counts avail; rfl
  | succ k ih =>
      intro completed counts avail
      simp only [List.replicate_succ, phase1, ih]

theorem phase2_empty_avail (dur : String → Option Int) :
    ∀ (prog : List (Option (String × Int))),
      phase2 dur prog [] = some (prog, []) := by
  intro prog
  induction prog with
  | nil => rfl
  | cons w ps ih =>
      cases w with
      | none => simp [phase2, ih]
      | some w2 => simp [phase2, ih]

/-- Unfolding equation for a busy slot in phase 1. -/
theorem phase1_cons_some (g : Graph) (s : String) (t : Int)
    (rest : List (Option (String × Int))) (completed : List String)
    (counts : String → Int) (avail : List String) :
    phase1 g (some (s, t) :: rest) completed counts avail
      = if t - 1 > 0 then
          (some (s, t - 1) :: (phase1 g rest completed counts avail).1,
            (phase1 g rest completed counts avail).2)
        else
          (none :: (phase1 g rest (completed ++ [s])
              (processChildren counts (g.children s) avail).1
              (processChildren counts (g.children s) avail).2).1,
            (phase1 g rest (completed ++ [s])
              (processChildren counts (g.children s) avail).1
              (processChildren counts (g.children s) avail).2).2) := rfl

/-- With no vertex ever completed and an empty heap, the multi-worker loop
spins forever: it exhausts any amount of fuel (the Python loop never
terminates). -/
theorem mwLoop_stuck (g : Graph) (dur : String → Option Int)
    (hlen : 0 < g.adj_list.length) :
    ∀ (fuel : Nat) (counts : String → Int) (k : Nat) (t : Int),
      mwLoop g dur fuel ⟨[], counts, [], List.replicate k none, t⟩ = none := by
  intro fuel
  induction fuel with
  | zero => intro counts k t; rfl
  | succ fuel ih =>
      intro counts k t
      simp only [mwLoop, List.length_nil, hlen, if_pos, tick, phase1_nones,
        phase2_empty_avail]
      exact ih counts k (t + 1)

theorem single_vertex_adj (v : String) :
    (Graph.empty.add_vertex v).adj_list = [(v, [])] := rfl

theorem single_vertex_children (v : String) :
    (Graph.empty.add_vertex v).children v = [] := by
  simp [Graph.children, single_vertex_adj, List.find?]

theorem single_vertex_sort (v : String) :
    (Graph.empty.add_vertex v).specific_topological_sort = [v] := by
  have heq : (Graph.empty.add_vertex v).specific_topological_sort
      = sortLoop (Graph.empty.add_vertex v) 1
          (Graph.empty.add_vertex v).initCounts [v] [] := rfl
  rw [heq]
  simp only [sortLoop, single_vertex_children, processChildren, List.nil_append]

/-- Once some worker holds the only step with positive time `j` left and
every other slot is idle, the simulation completes it after exactly `j`
more ticks. -/
theorem single_countdown (v : String) (dur : String → Option Int) (k : Nat) :
    ∀ (n : Nat) (j : Int), j = n + 1 →
    ∀ (fuel : Nat), n + 2 ≤ fuel → ∀ (t : Int) (counts : String → Int),
      mwLoop (Graph.empty.add_vertex v) dur fuel
        ⟨[], counts, [], some (v, j) :: List.replicate k none, t⟩
      = some ([v], t + j) := by
  intro n
  induction n with
  | zero =>
      intro j hj fuel hfuel t counts
      rcases Nat.exists_eq_add_of_le hfuel with ⟨m, hm⟩
      subst hm
      have hguard : ([] : List String).length
          < (Graph.empty.add_vertex v).adj_list.length := by
        simp [single_vertex_adj]
      have htick : tick (Graph.empty.add_vertex v) dur
          ⟨[], counts, [], some (v, j) :: List.replicate k none, t⟩
          = some ⟨[v], counts, [], none :: List.replicate k none, t + 1⟩ := by
        unfold tick
        rw [phase1_cons_some, if_neg (show ¬(j - 1 > 0) by omega)]
        simp only [single_vertex_children, processChildren, List.nil_append,
          phase1_nones, phase2_empty_avail]
      rw [show 0 + 2 + m = (1 + m) + 1 by omega]
      have hstep : mwLoop (Graph.empty.add_vertex v) dur ((1 + m) + 1)
            ⟨[], counts, [], some (v, j) :: List.replicate k none, t⟩
          = mwLoop (Graph.empty.add_vertex v) dur (1 + m)
            ⟨[v], counts, [], none :: List.replicate k none, t + 1⟩ := by
        simp only [mwLoop]
        rw [if_pos hguard, htick]
      rw [hstep, show 1 + m = m + 1 by omega]
      have hguard2 : ¬ (([v] : List String).length
          < (Graph.empty.add_vertex v).adj_list.length) := by
        simp [single_vertex_adj]
      simp only [mwLoop]
      rw [if_neg hguard2]
      have hteq : t + 1 = t + j := by omega
      rw [hteq]
  | succ n ihn =>
      intro j hj fuel hfuel t counts
      rcases Nat.exists_eq_add_of_le hfuel with ⟨m, hm⟩
      subst hm
      have hguard : ([] : List String).length
          < (Graph.empty.add_vertex v).adj_list.length := by
        simp [single_vertex_adj]
      have htick : tick (Graph.empty.add_vertex v) dur
          ⟨[], counts, [], some (v, j) :: List.replicate k none, t⟩
          = some ⟨[], counts, [], some (v, j - 1) :: List.replicate k none,
              t + 1⟩ := by
        unfold tick
        rw [phase1_cons_some, if_pos (show j - 1 > 0 by omega)]
        simp only [phase1_nones, phase2_empty_avail]
      rw [show n + 1 + 2 + m = (n + 2 + m) + 1 by omega]
      have hstep : mwLoop (Graph.empty.add_vertex v) dur ((n + 2 + m) + 1)
            ⟨[], counts, [], some (v, j) :: List.replicate k none, t⟩
          = mwLoop (Graph.empty.add_vertex v) dur (n + 2 + m)
            ⟨[], counts, [], some (v, j - 1) :: List.replicate k none,
              t + 1⟩ := by
        simp only [mwLoop]
        rw [if_pos hguard, htick]
      rw [hstep]
      have hres := ihn (j - 1) (by push_cast at hj ⊢; omega) (n + 2 + m)
        (by omega) (t + 1) counts
      rw [hres]
      have hteq : t + 1 + (j - 1) = t + j := by omega
      rw [hteq]

end Day07

namespace Day07

theorem busySteps_cons_none (rest : List (Option (String × Int))) :
    busySteps (none :: rest) = busySteps rest := rfl

theorem busySteps_cons_some (s : String) (t : Int)
    (rest : List (Option (String × Int))) :
    busySteps (some (s, t) :: rest) = s :: busySteps rest := rfl

/-- The invariant only depends on the busy list up to permutation. -/
theorem GInv_busy_perm {g : Graph} {counts : String → Int}
    {avail completed busy busy2 : List String} (hp : busy.Perm busy2)
    (hinv : GInv g counts avail completed busy) :
    GInv g counts avail completed busy2 := by
  obtain ⟨h1, h2, h3, h4, h5, h6, h7, h8⟩ := hinv
  refine ⟨h1, h2, ?_, h4, h5, ?_, ?_, h8⟩
  · exact (hp.append_left (completed ++ avail)).nodup_iff.mp h3
  · intro v hv
    exact h6 v (hp.mem_iff.mpr hv)
  · intro v hvV h0
    rcases h7 v hvV h0 with h | h | h
    · exact Or.inl h
    · exact Or.inr (Or.inl h)
    · exact Or.inr (Or.inr (hp.mem_iff.mp h))

/-- Moving an element from the head of the middle block to the head of the
final block is a permutation. -/
theorem perm_shuffle (c a bs e : List String) (v : String) :
    (c ++ (v :: a) ++ (bs ++ e)).Perm (c ++ a ++ (bs ++ (v :: e))) := by
  have h0 : (c ++ v :: a).Perm (v :: (c ++ a)) := List.perm_middle
  have h1 := h0.append_right (bs ++ e)
  have h2 : ((c ++ a) ++ v :: (bs ++ e)).Perm (v :: ((c ++ a) ++ (bs ++ e))) :=
    List.perm_middle
  have h3 : (bs ++ v :: e).Perm (v :: (bs ++ e)) := List.perm_middle
  have h4 := h3.append_left (c ++ a)
  exact (h1.trans h2.symm).trans h4.symm

/-- Transfer the head of the available heap into the busy frame. -/
theorem GInv_avail_to_busy {g : Graph} {counts : String → Int}
    {arest completed bs e : List String} {v : String}
    (hinv : GInv g counts (v :: arest) completed (bs ++ e)) :
    GInv g counts arest completed (bs ++ (v :: e)) := by
  obtain ⟨h1, h2, h3, h4, h5, h6, h7, h8⟩ := hinv
  refine ⟨h1, (List.pairwise_cons.mp h2).2, ?_, h4, ?_, ?_, ?_, h8⟩
  · exact (perm_shuffle completed arest bs e v).nodup_iff.mp h3
  · intro x hx
    exact h5 x (List.mem_cons_of_mem v hx)
  · intro x hx
    rcases List.mem_append.mp hx with h | h
    · exact h6 x (List.mem_append_left e h)
    · rcases List.mem_cons.mp h with h | h
      · exact h ▸ h5 v (List.mem_cons_self v arest)
      · exact h6 x (List.mem_append_right bs h)
  · intro x hxV h0
    rcases h7 x hxV h0 with h | h | h
    · exact Or.inl h
    · rcases List.mem_cons.mp h with h | h
      · exact Or.inr (Or.inr (List.mem_append_right bs (h ▸ List.mem_cons_self v e)))
      · exact Or.inr (Or.inl h)
    · rcases List.mem_append.mp h with h | h
      · exact Or.inr (Or.inr (List.mem_append_left _ h))
      · exact Or.inr (Or.inr (List.mem_append_right bs (List.mem_cons_of_mem v h)))

end Day07

namespace Day07

/-- Completing the busy step `s` - appending it to `completed` and
processing its children - preserves the multi-worker invariant. -/
theorem GInv_complete {g : Graph} (hw : g.Wellformed) {counts : String → Int}
    {avail completed busy : List String} {s : String}
    (hinv : GInv g counts avail completed (s :: busy)) :
    GInv g (processChildren counts (g.children s) avail).1
      (processChildren counts (g.children s) avail).2 (completed ++ [s])
      busy := by
  obtain ⟨h1, h2, h3, h4, h5, h6, h7, h8⟩ := hinv
  have hsV : s ∈ g.vertices := (h6 s (List.mem_cons_self s busy)).1
  have hsrc : g.remCount completed s = 0 := (h6 s (List.mem_cons_self s busy)).2
  have h3a := List.nodup_append.mp h3
  have h3b := List.nodup_append.mp h3a.1
  have hcompnd : completed.Nodup := h3b.1
  have havnd : avail.Nodup := h3b.2.1
  have hsnc : s ∉ completed := fun h =>
    h3a.2.2 (List.mem_append_left avail h) (List.mem_cons_self s busy)
  have hsnav : s ∉ avail := fun h =>
    h3a.2.2 (List.mem_append_right completed h) (List.mem_cons_self s busy)
  have hsnbusy : s ∉ busy := (List.nodup_cons.mp h3a.2.1).1
  have hrc := fun v => remCount_append (g := g) hw.1 hsnc v
  have hcnt : ∀ x ∈ g.children s, ((g.children s).count x : Int) ≤ counts x := by
    intro x hx
    rw [h1 x]
    exact_mod_cast (hrc x).1
  have hav : ∀ x ∈ avail, counts x ≤ 0 := by
    intro x hx
    rw [h1 x, (h5 x hx).2]
    simp
  obtain ⟨pcounts, pmem, psort, pnd, pav⟩ :=
    processChildren_spec (g.children s) counts avail hcnt hav h2 havnd
  have comp1 : ∀ v, (processChildren counts (g.children s) avail).1 v
      = (g.remCount (completed ++ [s]) v : Int) := by
    intro v
    rw [pcounts v, h1 v, (hrc v).2]
    exact (Nat.cast_sub (hrc v).1).symm
  have hpushedrc : ∀ x, x ∈ (processChildren counts (g.children s) avail).2 →
      x ∈ g.vertices ∧ g.remCount (completed ++ [s]) x = 0 := by
    intro x hx
    rcases (pmem x).mp hx with hx2 | ⟨hx2, hx3⟩
    · have hp := h5 x hx2
      refine ⟨hp.1, ?_⟩
      rw [(hrc x).2, hp.2]
      simp
    · refine ⟨children_subset hw hx2, ?_⟩
      have hcx : g.remCount completed x = (g.children s).count x := by
        have h9 := hx3
        rw [h1 x] at h9
        exact_mod_cast h9
      rw [(hrc x).2, hcx]
      simp
  have hpushedpos : ∀ x, x ∈ (processChildren counts (g.children s) avail).2 →
      x ∉ avail → g.remCount completed x ≠ 0 := by
    intro x hx hxav
    rcases (pmem x).mp hx with hx2 | ⟨hx2, hx3⟩
    · exact absurd hx2 hxav
    · have hpos : 0 < (g.children s).count x := List.count_pos_iff.mpr hx2
      have h9 := hx3
      rw [h1 x] at h9
      have h10 : g.remCount completed x = (g.children s).count x := by
        exact_mod_cast h9
      omega
  refine ⟨comp1, psort, ?_, ?_, hpushedrc, ?_, ?_, ?_⟩
  · -- Nodup of the three blocks
    rw [List.nodup_append]
    refine ⟨?_, (List.nodup_cons.mp h3a.2.1).2, ?_⟩
    · rw [List.nodup_append]
      refine ⟨?_, pnd, ?_⟩
      · rw [List.nodup_append]
        refine ⟨hcompnd, List.nodup_singleton s, ?_⟩
        intro x hx hxs
        rw [List.mem_singleton] at hxs
        exact hsnc (hxs ▸ hx)
      · intro x hx hx2
        rcases (pmem x).mp hx2 with hx3 | ⟨hx3, hx4⟩
        · rcases List.mem_append.mp hx with h | h
          · exact h3b.2.2 h hx3
          · rw [List.mem_singleton] at h
            exact hsnav (h ▸ hx3)
        · have hrcx : g.remCount completed x ≠ 0 := by
            have hpos : 0 < (g.children s).count x := List.count_pos_iff.mpr hx3
            have h9 := hx4
            rw [h1 x] at h9
            have h10 : g.remCount completed x = (g.children s).count x := by
              exact_mod_cast h9
            omega
          rcases List.mem_append.mp hx with h | h
          · exact hrcx (h8 x h)
          · rw [List.mem_singleton] at h
            exact hrcx (h ▸ hsrc)
    · intro x hx hxbusy
      have hxrc0 : g.remCount completed x = 0 := (h6 x (List.mem_cons_of_mem s hxbusy)).2
      rcases List.mem_append.mp hx with h | h
      · rcases List.mem_append.mp h with h2 | h2
        · exact h3a.2.2 (List.mem_append_left avail h2)
            (List.mem_cons_of_mem s hxbusy)
        · rw [List.mem_singleton] at h2
          exact hsnbusy (h2 ▸ hxbusy)
      · rcases (pmem x).mp h with h2 | ⟨h2, h3x⟩
        · exact h3a.2.2 (List.mem_append_right completed h2)
            (List.mem_cons_of_mem s hxbusy)
        · have hpos : 0 < (g.children s).count x := List.count_pos_iff.mpr h2
          have h9 := h3x
          rw [h1 x] at h9
          have h10 : g.remCount completed x = (g.children s).count x := by
            exact_mod_cast h9
          omega
  · intro v hv
    rcases List.mem_append.mp hv with h | h
    · exact h4 v h
    · rw [List.mem_singleton] at h
      exact h ▸ hsV
  · intro v hv
    have hp := h6 v (List.mem_cons_of_mem s hv)
    refine ⟨hp.1, ?_⟩
    rw [(hrc v).2, hp.2]
    simp
  · intro v hvV hrc0
    by_cases hv0 : g.remCount completed v = 0
    · rcases h7 v hvV hv0 with h | h | h
      · exact Or.inl (List.mem_append_left _ h)
      · exact Or.inr (Or.inl ((pmem v).mpr (Or.inl h)))
      · rcases List.mem_cons.mp h with h2 | h2
        · exact Or.inl (List.mem_append_right _ (by simp [h2]))
        · exact Or.inr (Or.inr h2)
    · have hle := (hrc v).1
      have heq2 : (g.children s).count v = g.remCount completed v := by
        rw [(hrc v).2] at hrc0
        omega
      have hvch : v ∈ g.children s :=
        List.count_pos_iff.mp (by omega)
      refine Or.inr (Or.inl ((pmem v).mpr (Or.inr ⟨hvch, ?_⟩)))
      rw [h1 v]
      exact_mod_cast heq2.symm
  · intro v hv
    rcases List.mem_append.mp hv with h | h
    · rw [(hrc v).2, h8 v h]
      simp
    · rw [List.mem_singleton] at h
      subst h
      rw [(hrc v).2, hsrc]
      simp

end Day07

namespace Day07

/-- Phase 1 preserves the multi-worker invariant.  `extra` is the frame of
busy steps held by worker slots outside the processed slice.  The new busy
steps come from the old ones, and newly completed steps come from the old
completed list or the old busy steps. -/
theorem phase1_preserve {g : Graph} (hw : g.Wellformed) :
    ∀ (prog : List (Option (String × Int))) (completed : List String)
      (counts : String → Int) (avail extra : List String),
      GInv g counts avail completed (busySteps prog ++ extra) →
      GInv g (phase1 g prog completed counts avail).2.2.1
        (phase1 g prog completed counts avail).2.2.2
        (phase1 g prog completed counts avail).2.1
        (busySteps (phase1 g prog completed counts avail).1 ++ extra) ∧
      (∀ v ∈ busySteps (phase1 g prog completed counts avail).1,
        v ∈ busySteps prog) ∧
      (∀ v ∈ (phase1 g prog completed counts avail).2.1,
        v ∈ completed ∨ v ∈ busySteps prog) := by
  intro prog
  induction prog with
  | nil =>
      intro completed counts avail extra hinv
      refine ⟨by simpa [phase1] using hinv, ?_, ?_⟩
      · intro v hv
        exact hv
      · intro v hv
        exact Or.inl hv
  | cons w rest ih =>
      intro completed counts avail extra hinv
      cases w with
      | none =>
          have hr : phase1 g (none :: rest) completed counts avail
              = (none :: (phase1 g rest completed counts avail).1,
                  (phase1 g rest completed counts avail).2) := rfl
          rw [hr]
          obtain ⟨ih1, ih2, ih3⟩ := ih completed counts avail extra hinv
          exact ⟨ih1, ih2, ih3⟩
      | some w2 =>
          rcases w2 with ⟨s, t⟩
          by_cases ht : t - 1 > 0
          · have hr : phase1 g (some (s, t) :: rest) completed counts avail
                = (some (s, t - 1) ::
                      (phase1 g rest completed counts avail).1,
                    (phase1 g rest completed counts avail).2) := by
              rw [phase1_cons_some, if_pos ht]
            rw [hr]
            have hperm1 : (busySteps (some (s, t) :: rest) ++ extra).Perm
                (busySteps rest ++ (s :: extra)) := by
              rw [busySteps_cons_some]
              exact List.perm_middle.symm
            have hinv2 := GInv_busy_perm hperm1 hinv
            obtain ⟨ih1, ih2, ih3⟩ :=
              ih completed counts avail (s :: extra) hinv2
            have hperm2 : (busySteps (phase1 g rest completed counts avail).1
                  ++ (s :: extra)).Perm
                (busySteps (some (s, t - 1) ::
                    (phase1 g rest completed counts avail).1) ++ extra) := by
              rw [busySteps_cons_some]
              exact List.perm_middle
            refine ⟨GInv_busy_perm hperm2 ih1, ?_, ?_⟩
            · intro v hv
              rw [busySteps_cons_some] at hv
              rw [busySteps_cons_some]
              rcases List.mem_cons.mp hv with h | h
              · exact h ▸ List.mem_cons_self s (busySteps rest)
              · exact List.mem_cons_of_mem s (ih2 v h)
            · intro v hv
              rw [busySteps_cons_some]
              rcases ih3 v hv with h | h
              · exact Or.inl h
              · exact Or.inr (List.mem_cons_of_mem s h)
          · have hr : phase1 g (some (s, t) :: rest) completed counts avail
                = (none :: (phase1 g rest (completed ++ [s])
                      (processChildren counts (g.children s) avail).1
                      (processChildren counts (g.children s) avail).2).1,
                    (phase1 g rest (completed ++ [s])
                      (processChildren counts (g.children s) avail).1
                      (processChildren counts (g.children s) avail).2).2) := by
              rw [phase1_cons_some, if_neg ht]
            rw [hr]
            have hinv2 : GInv g counts avail completed
                (s :: (busySteps rest ++ extra)) := hinv
            have hinv3 := GInv_complete hw hinv2
            obtain ⟨ih1, ih2, ih3⟩ :=
              ih (completed ++ [s])
                (processChildren counts (g.children s) avail).1
                (processChildren counts (g.children s) avail).2 extra hinv3
            refine ⟨ih1, ?_, ?_⟩
            · intro v hv
              rw [busySteps_cons_some]
              exact List.mem_cons_of_mem s (ih2 v hv)
            · intro v hv
              rw [busySteps_cons_some]
              rcases ih3 v hv with h | h
              · rcases List.mem_append.mp h with h2 | h2
                · exact Or.inl h2
                · rw [List.mem_singleton] at h2
                  exact Or.inr (h2 ▸ List.mem_cons_self s (busySteps rest))
              · exact Or.inr (List.mem_cons_of_mem s h)

end Day07

namespace Day07

/-- Phase 2 preserves the multi-worker invariant whenever it succeeds, and
every newly busy step was either already busy or was taken from the
available heap after a successful duration lookup. -/
theorem phase2_preserve {g : Graph} (dur : String → Option Int) :
    ∀ (prog : List (Option (String × Int))) (avail completed : List String)
      (counts : String → Int) (extra : List String)
      (r : List (Option (String × Int)) × List String),
      phase2 dur prog avail = some r →
      GInv g counts avail completed (busySteps prog ++ extra) →
      GInv g counts r.2 completed (busySteps r.1 ++ extra) ∧
      (∀ v ∈ busySteps r.1,
        v ∈ busySteps prog ∨ (v ∈ avail ∧ (dur v).isSome)) := by
  intro prog
  induction prog with
  | nil =>
      intro avail completed counts extra r heq hinv
      have heq2 : some (([] : List (Option (String × Int))), avail) = some r := heq
      injection heq2 with h
      subst h
      exact ⟨hinv, by intro v hv; cases hv⟩
  | cons w rest ih =>
      intro avail completed counts extra r heq hinv
      cases w with
      | none =>
          cases avail with
          | nil =>
              have heq2 : (phase2 dur rest []).map
                  (fun r => ((none : Option (String × Int)) :: r.1, r.2))
                  = some r := heq
              rcases Option.map_eq_some'.mp heq2 with ⟨r0, hr0, hr⟩
              subst hr
              obtain ⟨ih1, ih2⟩ := ih [] completed counts extra r0 hr0 hinv
              exact ⟨ih1, fun v hv => ih2 v hv⟩
          | cons v arest =>
              rcases hdv : dur v with _ | d
              · have : (none : Option (List (Option (String × Int)) × List String))
                    = some r := by
                  rw [show (none : Option (List (Option (String × Int)) × List String))
                      = phase2 dur (none :: rest) (v :: arest) by
                    simp [phase2, hdv]]
                  exact heq
                cases this
              · have heq2 : (phase2 dur rest arest).map
                    (fun r => (some (v, d) :: r.1, r.2)) = some r := by
                  rw [← heq]
                  simp [phase2, hdv]
                rcases Option.map_eq_some'.mp heq2 with ⟨r0, hr0, hr⟩
                subst hr
                have hinv2 := GInv_avail_to_busy (e := extra) hinv
                obtain ⟨ih1, ih2⟩ :=
                  ih arest completed counts (v :: extra) r0 hr0 hinv2
                have hperm : (busySteps r0.1 ++ (v :: extra)).Perm
                    (busySteps (some (v, d) :: r0.1) ++ extra) := by
                  rw [busySteps_cons_some]
                  exact List.perm_middle
                refine ⟨GInv_busy_perm hperm ih1, ?_⟩
                intro x hx
                rw [busySteps_cons_some] at hx
                rcases List.mem_cons.mp hx with h | h
                · refine Or.inr ⟨h ▸ List.mem_cons_self v arest, ?_⟩
                  rw [h, hdv]
                  rfl
                · rcases ih2 x h with h2 | h2
                  · exact Or.inl h2
                  · exact Or.inr ⟨List.mem_cons_of_mem v h2.1, h2.2⟩
      | some w2 =>
          rcases w2 with ⟨s, t⟩
          have heq2 : (phase2 dur rest avail).map
              (fun r => (some (s, t) :: r.1, r.2)) = some r := heq
          rcases Option.map_eq_some'.mp heq2 with ⟨r0, hr0, hr⟩
          subst hr
          have hperm1 : (busySteps (some (s, t) :: rest) ++ extra).Perm
              (busySteps rest ++ (s :: extra)) := by
            rw [busySteps_cons_some]
            exact List.perm_middle.symm
          have hinv2 := GInv_busy_perm hperm1 hinv
          obtain ⟨ih1, ih2⟩ := ih avail completed counts (s :: extra) r0 hr0 hinv2
          have hperm2 : (busySteps r0.1 ++ (s :: extra)).Perm
              (busySteps (some (s, t) :: r0.1) ++ extra) := by
            rw [busySteps_cons_some]
            exact List.perm_middle
          refine ⟨GInv_busy_perm hperm2 ih1, ?_⟩
          intro x hx
          rw [busySteps_cons_some] at hx
          rw [busySteps_cons_some]
          rcases List.mem_cons.mp hx with h | h
          · exact Or.inl (h ▸ List.mem_cons_self s (busySteps rest))
          · rcases ih2 x h with h2 | h2
            · exact Or.inl (List.mem_cons_of_mem s h2)
            · exact Or.inr h2

end Day07

namespace Day07

theorem busySteps_replicate_none (k : Nat) :
    busySteps (List.replicate k none) = [] := by
  induction k with
  | zero => rfl
  | succ k ih => simpa [List.replicate_succ, busySteps_cons_none] using ih

/-- One tick preserves the multi-worker invariant along with successful
duration lookups for all busy and completed steps. -/
theorem tick_preserve {g : Graph} (hw : g.Wellformed)
    (dur : String → Option Int) (st r : MWState)
    (heq : tick g dur st = some r)
    (hinv : GInv g st.counts st.avail st.completed (busySteps st.progress))
    (hbusy : ∀ v ∈ busySteps st.progress, (dur v).isSome)
    (hcomp : ∀ v ∈ st.completed, (dur v).isSome) :
    GInv g r.counts r.avail r.completed (busySteps r.progress) ∧
    (∀ v ∈ busySteps r.progress, (dur v).isSome) ∧
    (∀ v ∈ r.completed, (dur v).isSome) := by
  simp only [tick] at heq
  rcases hp2 : phase2 dur (phase1 g st.progress st.completed st.counts st.avail).1
      (phase1 g st.progress st.completed st.counts st.avail).2.2.2 with _ | r2
  · rw [hp2] at heq
    cases heq
  · rw [hp2] at heq
    injection heq with heq2
    subst heq2
    have hinv0 : GInv g st.counts st.avail st.completed
        (busySteps st.progress ++ []) := by
      rw [List.append_nil]
      exact hinv
    obtain ⟨p1inv, p1busy, p1comp⟩ :=
      phase1_preserve hw st.progress st.completed st.counts st.avail [] hinv0
    obtain ⟨p2inv, p2busy⟩ :=
      phase2_preserve dur
        (phase1 g st.progress st.completed st.counts st.avail).1
        (phase1 g st.progress st.completed st.counts st.avail).2.2.2
        (phase1 g st.progress st.completed st.counts st.avail).2.1
        (phase1 g st.progress st.completed st.counts st.avail).2.2.1
        [] r2 hp2 p1inv
    rw [List.append_nil] at p2inv
    refine ⟨p2inv, ?_, ?_⟩
    · intro v hv
      rcases p2busy v hv with h | h
      · exact hbusy v (p1busy v h)
      · exact h.2
    · intro v hv
      rcases p1comp v hv with h | h
      · exact hcomp v h
      · exact hbusy v h

/-- If the multi-worker loop returns a result, every vertex was completed,
so every vertex had a successful duration lookup. -/
theorem mwLoop_some_complete {g : Graph} (hw : g.Wellformed)
    (dur : String → Option Int) :
    ∀ (fuel : Nat) (st : MWState) (r : List String × Int),
      mwLoop g dur fuel st = some r →
      GInv g st.counts st.avail st.completed (busySteps st.progress) →
      (∀ v ∈ busySteps st.progress, (dur v).isSome) →
      (∀ v ∈ st.completed, (dur v).isSome) →
      ∀ v ∈ g.vertices, (dur v).isSome := by
  intro fuel
  induction fuel with
  | zero =>
      intro st r heq
      cases heq
  | succ fuel ih =>
      intro st r heq hinv hbusy hcomp
      by_cases hguard : st.completed.length < g.adj_list.length
      · rw [show mwLoop g dur (fuel + 1) st
            = match tick g dur st with
              | none => none
              | some st1 => mwLoop g dur fuel st1 by
            simp only [mwLoop, if_pos hguard]] at heq
        rcases htick : tick g dur st with _ | st1
        · rw [htick] at heq
          cases heq
        · rw [htick] at heq
          obtain ⟨tinv, tbusy, tcomp⟩ :=
            tick_preserve hw dur st st1 htick hinv hbusy hcomp
          exact ih st1 r heq tinv tbusy tcomp
      · intro v hvV
        have hnd : st.completed.Nodup :=
          (hinv.2.2.1.of_append_left).of_append_left
        have hsub : ∀ x ∈ st.completed, x ∈ g.vertices := hinv.2.2.2.1
        have hlen : g.vertices.length ≤ st.completed.length := by
          rw [vertices_length]
          omega
        exact hcomp v (mem_of_nodup_subset_length hnd hsub hlen v hvV)

/-- The duration table built from a step list has no entry for any other
string. -/
theorem lookupDur_eq_none {steps : List String} {offset : Int} {s : String}
    (hs : s ∉ steps) :
    lookupDur (get_step_durations steps offset) s = none := by
  unfold lookupDur
  rw [List.find?_eq_none.mpr]
  · rfl
  · intro x hx
    rcases List.mem_map.mp hx with ⟨p, hp, hfx⟩
    rw [← hfx]
    simp only [get_step_durations] at *
    intro hbeq
    have hps : p.2 = s := by simpa using hbeq
    have hmem : p.2 ∈ steps.enum.map Prod.snd := List.mem_map_of_mem Prod.snd hp
    rw [List.enum_map_snd] at hmem
    exact hs (hps ▸ hmem)

/-- The multi-worker invariant holds at the start of the simulation. -/
theorem GInv_initial {g : Graph} (hw : g.Wellformed) :
    GInv g g.initCounts
      (heapify (g.vertices.filter (fun v => g.initCounts v == 0))) [] [] := by
  obtain ⟨h1, h2, h3, h4, h5, h6, h7, h8⟩ := Inv_initial hw
  refine ⟨h1, h2, by simpa using h3, h4, h5, ?_, ?_, h7⟩
  · intro v hv
    cases hv
  · intro v hvV h0
    rcases h6 v hvV h0 with h | h
    · exact Or.inl h
    · exact Or.inr (Or.inl h)

end Day07

namespace Day07

theorem sum_filter_ne {V : List String} (hnd : V.Nodup) {v : String}
    (hv : v ∈ V) (f : String → Nat) :
    (V.map f).sum = f v + ((V.filter (fun x => !(x == v))).map f).sum := by
  have hperm : V.Perm (v :: V.erase v) := List.perm_cons_erase hv
  have hfe : V.erase v = V.filter (fun x => !(x == v)) := by
    rw [hnd.erase_eq_filter]
    exact List.filter_congr (fun x _ => rfl)
  have h1 : (V.map f).sum = ((v :: V.erase v).map f).sum :=
    (hperm.map f).sum_eq
  rw [h1, List.map_cons, List.sum_cons, hfe]

/-- Handing the worker a fresh step `v` after completing `s` strictly
decreases the fuel bound. -/
theorem pendSum_step {g : Graph} (hw : g.Wellformed)
    (dur : String → Option Int) {comp : List String} {s v : String}
    (hvV : v ∈ g.vertices) (hvc : v ∉ comp) (hvs : v ≠ s) :
    pendSum g dur comp s
      = (1 + durNat dur v) + pendSum g dur (comp ++ [s]) v := by
  unfold pendSum
  have hpt : ∀ x ∈ g.vertices,
      (!((comp ++ [s]).contains x) && !(x == v))
        = ((!(comp.contains x) && !(x == s)) && !(x == v)) := by
    intro x _
    by_cases h1 : x ∈ comp <;> by_cases h2 : x = s <;> simp [h1, h2]
  have hB : g.vertices.filter (fun x => !((comp ++ [s]).contains x) && !(x == v))
      = (g.vertices.filter (fun x => !(comp.contains x) && !(x == s))).filter
          (fun x => !(x == v)) := by
    rw [List.filter_filter]
    exact List.filter_congr (fun x hx => (hpt x hx).trans (by rw [Bool.and_comm]))
  have hvA : v ∈ g.vertices.filter (fun x => !(comp.contains x) && !(x == s)) := by
    rw [List.mem_filter]
    refine ⟨hvV, ?_⟩
    simp [hvc, hvs]
  have hAnd : (g.vertices.filter
      (fun x => !(comp.contains x) && !(x == s))).Nodup := hw.1.filter _
  rw [hB]
  exact sum_filter_ne hAnd hvA (fun x => 1 + durNat dur x)

/-- The top-level fuel covers the first assigned step plus all remaining
work. -/
theorem pendSum_init {g : Graph} (hw : g.Wellformed)
    (dur : String → Option Int) {v : String} (hvV : v ∈ g.vertices) :
    (1 + durNat dur v) + pendSum g dur [] v
      ≤ (g.allSteps.map (fun x => 1 + durNat dur x)).sum := by
  have hpt : ∀ x ∈ g.vertices,
      (!(([] : List String).contains x) && !(x == v)) = !(x == v) := by
    intro x _
    simp
  have hA : g.vertices.filter (fun x => !(([] : List String).contains x) && !(x == v))
      = g.vertices.filter (fun x => !(x == v)) := List.filter_congr hpt
  have hsum : (g.vertices.map (fun x => 1 + durNat dur x)).sum
      = (1 + durNat dur v)
        + ((g.vertices.filter (fun x => !(x == v))).map
            (fun x => 1 + durNat dur x)).sum :=
    sum_filter_ne hw.1 hvV (fun x => 1 + durNat dur x)
  have hsplit : (g.allSteps.map (fun x => 1 + durNat dur x)).sum
      = (g.vertices.map (fun x => 1 + durNat dur x)).sum
        + (((g.adj_list.map Prod.snd).foldr (· ++ ·) []).map
            (fun x => 1 + durNat dur x)).sum := by
    unfold Graph.allSteps Graph.vertices
    rw [List.map_append, List.sum_append]
  unfold pendSum
  rw [hA]
  omega

end Day07

namespace Day07

/-- Core of the one-worker refinement: from any state where the single
worker holds step `s` with `t` ticks left and the heap and counts satisfy
the single-worker invariant (with `s` conceptually at the heap's head),
the completion order produced by the rest of the simulation is exactly
what the rest of the single-worker loop produces. -/
theorem mw_one_worker_core {g : Graph} (hw : g.Wellformed) {l : List String}
    (hl : IsTopoOrder g l) (dur : String → Option Int)
    (hdur : ∀ v ∈ g.vertices, (dur v).isSome) :
    ∀ (fuelMW : Nat) (counts : String → Int) (avail comp : List String)
      (s : String) (t time : Int),
      Inv g counts (s :: avail) comp →
      t.toNat + 2 + pendSum g dur comp s ≤ fuelMW →
      ∀ fuelK : Nat, g.adj_list.length ≤ fuelK + comp.length →
      (mwLoop g dur fuelMW ⟨comp, counts, avail, [some (s, t)], time⟩).map
          Prod.fst
        = some (sortLoop g fuelK counts (s :: avail) comp) := by
  intro fuelMW
  induction fuelMW with
  | zero =>
      intro counts avail comp s t time hinv hbound fuelK hfK
      exact absurd hbound (by omega)
  | succ fuelMW ih =>
      intro counts avail comp s t time hinv hbound fuelK hfK
      have hsV : s ∈ g.vertices :=
        (hinv.2.2.2.2.1 s (List.mem_cons_self s avail)).1
      have hcompsub : ∀ x ∈ comp ++ [s], x ∈ g.vertices := by
        intro x hx
        rcases List.mem_append.mp hx with h | h
        · exact hinv.2.2.2.1 x h
        · rw [List.mem_singleton] at h
          exact h ▸ hsV
      have hcompnd : (comp ++ [s]).Nodup := by
        have hsub : (comp ++ [s]).Sublist (comp ++ s :: avail) :=
          List.Sublist.append_left ((List.nil_sublist avail).cons₂ s) comp
        exact hsub.nodup hinv.2.2.1
      have hguard : comp.length < g.adj_list.length := by
        have hlen := (List.subperm_of_subset hcompnd hcompsub).length_le
        rw [← vertices_length g]
        rw [List.length_append, List.length_singleton] at hlen
        omega
      have hfK1 : 1 ≤ fuelK := by omega
      rcases Nat.exists_eq_add_of_le hfK1 with ⟨fk, hfk⟩
      by_cases ht : t - 1 > 0
      · -- the worker keeps running for another tick
        have htick : tick g dur ⟨comp, counts, avail, [some (s, t)], time⟩
            = some ⟨comp, counts, avail, [some (s, t - 1)], time + 1⟩ := by
          simp only [tick]
          rw [phase1_cons_some, if_pos ht]
          simp only [phase1, phase2]
          rfl
        have hstep : mwLoop g dur (fuelMW + 1)
              ⟨comp, counts, avail, [some (s, t)], time⟩
            = mwLoop g dur fuelMW
              ⟨comp, counts, avail, [some (s, t - 1)], time + 1⟩ := by
          simp only [mwLoop]
          rw [if_pos hguard, htick]
        rw [hstep]
        exact ih counts avail comp s (t - 1) (time + 1) hinv (by omega) fuelK hfK
      · -- the worker finishes s on this tick
        have hinv2 := Inv_step hw hinv
        rcases hpc2 : (processChildren counts (g.children s) avail).2
          with _ | ⟨v, arest⟩
        · -- no step is available: the whole graph must be finished
          rw [hpc2] at hinv2
          have hfull : ∀ x ∈ g.vertices, x ∈ comp ++ [s] :=
            complete_of_acyclic hw hl hinv2
          have hlen2 : g.adj_list.length ≤ (comp ++ [s]).length := by
            rw [← vertices_length g]
            exact (List.subperm_of_subset hw.1 hfull).length_le
          have htick : tick g dur ⟨comp, counts, avail, [some (s, t)], time⟩
              = some ⟨comp ++ [s],
                  (processChildren counts (g.children s) avail).1, [],
                  [none], time + 1⟩ := by
            simp only [tick]
            rw [phase1_cons_some, if_neg ht]
            simp only [phase1]
            rw [hpc2, phase2_empty_avail]
          have hstep : mwLoop g dur (fuelMW + 1)
                ⟨comp, counts, avail, [some (s, t)], time⟩
              = mwLoop g dur fuelMW
                ⟨comp ++ [s],
                  (processChildren counts (g.children s) avail).1, [],
                  [none], time + 1⟩ := by
            simp only [mwLoop]
            rw [if_pos hguard, htick]
          rw [hstep]
          have hf1 : 1 ≤ fuelMW := by omega
          rcases Nat.exists_eq_add_of_le hf1 with ⟨fm, hfm⟩
          have hstop : mwLoop g dur fuelMW
              ⟨comp ++ [s],
                (processChildren counts (g.children s) avail).1, [],
                [none], time + 1⟩ = some (comp ++ [s], time + 1) := by
            rw [hfm, show 1 + fm = fm + 1 by omega]
            simp only [mwLoop]
            rw [if_neg (by omega)]
          rw [hstop]
          have hk : sortLoop g fuelK counts (s :: avail) comp = comp ++ [s] := by
            rw [hfk, show 1 + fk = fk + 1 by omega]
            simp only [sortLoop]
            rw [hpc2]
            cases fk <;> simp only [sortLoop]
          rw [hk]
          rfl
        · -- the freed worker immediately takes the smallest available step
          have hinv3 : Inv g (processChildren counts (g.children s) avail).1
              (v :: arest) (comp ++ [s]) := by
            rw [← hpc2]
            exact hinv2
          have hvV : v ∈ g.vertices :=
            (hinv3.2.2.2.2.1 v (List.mem_cons_self v arest)).1
          rcases Option.isSome_iff_exists.mp (hdur v hvV) with ⟨d, hd⟩
          have htick : tick g dur ⟨comp, counts, avail, [some (s, t)], time⟩
              = some ⟨comp ++ [s],
                  (processChildren counts (g.children s) avail).1, arest,
                  [some (v, d)], time + 1⟩ := by
            simp only [tick]
            rw [phase1_cons_some, if_neg ht]
            simp only [phase1]
            rw [hpc2]
            simp only [phase2, hd, phase2_empty_avail]
            rfl
          have hstep : mwLoop g dur (fuelMW + 1)
                ⟨comp, counts, avail, [some (s, t)], time⟩
              = mwLoop g dur fuelMW
                ⟨comp ++ [s],
                  (processChildren counts (g.children s) avail).1, arest,
                  [some (v, d)], time + 1⟩ := by
            simp only [mwLoop]
            rw [if_pos hguard, htick]
          rw [hstep]
          have hdisj := List.disjoint_of_nodup_append hinv3.2.2.1
          have hvnc : v ∉ comp := by
            intro hvc
            exact hdisj (List.mem_append_left [s] hvc)
              (List.mem_cons_self v arest)
          have hvs : v ≠ s := by
            intro hvse
            have hs1 : s ∈ comp ++ [s] :=
              List.mem_append_right comp (List.mem_singleton_self s)
            have hs2 : s ∈ v :: arest := by
              rw [hvse]
              exact List.mem_cons_self s arest
            exact hdisj hs1 hs2
          have hpend := pendSum_step hw dur hvV hvnc hvs
          have hdn : durNat dur v = d.toNat := by
            unfold durNat
            rw [hd]
          have hb2 : d.toNat + 2 + pendSum g dur (comp ++ [s]) v ≤ fuelMW := by
            rw [hpend, hdn] at hbound
            omega
          have hfk2 : g.adj_list.length ≤ fk + (comp ++ [s]).length := by
            rw [List.length_append, List.length_singleton]
            omega
          have hihres := ih (processChildren counts (g.children s) avail).1
            arest (comp ++ [s]) v d (time + 1) hinv3 hb2 fk hfk2
          rw [hihres]
          have hk : sortLoop g fuelK counts (s :: avail) comp
              = sortLoop g fk (processChildren counts (g.children s) avail).1
                  (v :: arest) (comp ++ [s]) := by
            rw [hfk, show 1 + fk = fk + 1 by omega]
            simp only [sortLoop]
            rw [hpc2]
          rw [hk]

end Day07

namespace Day07

/-- C4: on the example graph with duration(step) = 1 + alphabetic rank and
2 workers, the multi-worker scheduler finishes the steps in the order
C, A, B, F, D, E after a total of 15 time units. -/
theorem multiworker_puzzle_example_order_and_time :
    testGraph.multiworker_step_sort
        (lookupDur (get_step_durations ascii_uppercase 1)) 2
      = some (["C", "A", "B", "F", "D", "E"], 15) := by
  decide

/-- C5, counterexample: on the empty graph the multi-worker scheduler
returns elapsed time -1, not 0 as claimed: `time_count` starts at -1 and
the loop body never runs. -/
theorem multiworker_empty_graph_not_zero_time :
    Graph.empty.multiworker_step_sort (fun _ => some 1) 5 = some ([], -1) ∧
      (-1 : Int) ≠ 0 := by
  exact ⟨rfl, by decide⟩

/-- C5, amended: for every duration table and worker count, the
multi-worker scheduler on a graph with zero vertices returns the empty
completion order and total elapsed time -1. -/
theorem multiworker_empty_graph_returns_neg_one
    (dur : String → Option Int) (workers : Nat) :
    Graph.empty.multiworker_step_sort dur workers = some ([], -1) := rfl

/-- C6, counterexample: on the cyclic graph A→B→A the single-worker
scheduler does not fail loudly; it silently returns a truncated result
(the empty list) although the graph has two vertices. -/
theorem specific_sort_cyclic_silent_truncation :
    cyclicGraph.specific_topological_sort = [] ∧
      cyclicGraph.vertices.length = 2 := by
  decide

/-- C8, counterexample: for a single vertex A whose duration-table entry
is 0, the multi-worker scheduler reports elapsed time 1, not the entry 0:
a step always occupies a worker for at least one full tick. -/
theorem single_vertex_zero_duration_time_one :
    (Graph.empty.add_vertex "A").multiworker_step_sort
        (fun s => if s = "A" then some 0 else none) 1 = some (["A"], 1) ∧
      ((1 : Int) = 0 → False) := by
  exact ⟨by decide, by decide⟩

/-- C7: the default duration table maps the k-th uppercase letter (0-based)
to `offset + k`; with the default offset this is 61 for A up to 86 for Z,
and the same formula holds for any configured offset. -/
theorem default_durations_offset_rank :
    (∀ k, k < 26 →
      lookupDur (get_step_durations) (String.mk [Char.ofNat (65 + k)])
        = some (61 + (k : Int))) ∧
    (∀ offset : Int, ∀ k, k < 26 →
      lookupDur (get_step_durations ascii_uppercase offset)
          (String.mk [Char.ofNat (65 + k)])
        = some (offset + (k : Int))) := by
  constructor
  · decide
  · intro offset k hk
    interval_cases k <;> rfl

/-- C7 witness: the theorem applied at Z (default offset) and at A with
offset 5. -/
theorem default_durations_offset_rank_witness :
    lookupDur (get_step_durations) (String.mk [Char.ofNat (65 + 25)])
        = some (61 + (25 : Int)) ∧
      lookupDur (get_step_durations ascii_uppercase 5)
          (String.mk [Char.ofNat (65 + 0)]) = some (5 + (0 : Int)) := by
  exact ⟨default_durations_offset_rank.1 25 (by decide),
    default_durations_offset_rank.2 5 0 (by decide)⟩


/-- C1: for every well-formed acyclic graph (acyclicity expressed as the
existence of some topological enumeration), the single-worker scheduler
returns a permutation of the vertices - duplicate-free, none missing, none
extraneous - in which every edge (u, v) has u strictly before v. -/
theorem specific_topological_sort_isTopoOrder {g : Graph} (hw : g.Wellformed)
    (hacyc : g.Acyclic) : IsTopoOrder g g.specific_topological_sort := by
  obtain ⟨l, hl⟩ := hacyc
  obtain ⟨hinv, htrace⟩ := specific_sort_spec hw
  have hcompl := complete_of_acyclic hw hl hinv
  refine ⟨?_, hcompl, hinv.2.2.2.1, ?_⟩
  · have hnd := hinv.2.2.1
    simpa using hnd
  · intro u hu v hv
    have hvV : v ∈ g.vertices := children_subset hw hv
    have hvr : v ∈ g.specific_topological_sort := hcompl v hvV
    exact (hinv.2.2.2.2.2.2.2 u v hv hvr).2

/-- C1 witness: the theorem applied to the worked-example graph, with an
explicit topological enumeration witnessing acyclicity. -/
theorem specific_topological_sort_isTopoOrder_witness :
    IsTopoOrder testGraph testGraph.specific_topological_sort :=
  specific_topological_sort_isTopoOrder (by decide)
    ⟨["C", "A", "B", "D", "F", "E"], by decide⟩


/-- C2: tie-breaking always prefers the lexicographically smallest eligible
step.  Part 1: each step the single-worker scheduler emits is least among
the steps then eligible.  Part 2: phase 2 of the multi-worker scheduler
hands the least available step to the lowest-index idle worker slot.
Part 3: in the diamond graph where B and C both depend only on A, both
schedulers emit B before C. -/
theorem schedulers_prefer_smallest_eligible :
    (∀ (g : Graph), g.Wellformed →
      ∀ i, ∀ hlt : i < g.specific_topological_sort.length,
        ∀ w, eligible g (g.specific_topological_sort.take i) w →
        LeB (g.specific_topological_sort.get ⟨i, hlt⟩) w) ∧
    (∀ (dur : String → Option Int) (prog : List (Option (String × Int)))
        (idx : Nat) (v : String) (rest : List String) (d : Int),
      (v :: rest).Pairwise LeB →
      (∀ w ∈ v :: rest, (dur w).isSome) →
      dur v = some d →
      prog.get? idx = some none →
      (∀ j, j < idx → prog.get? j ≠ some none) →
      ∃ r, phase2 dur prog (v :: rest) = some r ∧
        r.1.get? idx = some (some (v, d)) ∧
        ∀ w ∈ v :: rest, LeB v w) ∧
    (diamondGraph.specific_topological_sort = ["A", "B", "C"] ∧
      diamondGraph.multiworker_step_sort (fun _ => some 1) 2
        = some (["A", "B", "C"], 2)) :=
  ⟨fun g hw => (specific_sort_spec hw).2,
    phase2_assigns_min,
    by decide, by decide⟩

/-- C2 witness: in the diamond graph, step B (position 1 of the output) is
least among the steps eligible once A is done - in particular B comes
before C - and phase 2 hands B, not C, to the single idle worker slot. -/
theorem schedulers_prefer_smallest_eligible_witness :
    LeB (diamondGraph.specific_topological_sort.get ⟨1, by decide⟩) "C" ∧
      ∃ r, phase2 (fun _ => some (1 : Int)) [none] ["B", "C"] = some r ∧
        r.1.get? 0 = some (some ("B", 1)) ∧ ∀ w ∈ ["B", "C"], LeB "B" w := by
  constructor
  · exact schedulers_prefer_smallest_eligible.1 diamondGraph (by decide) 1
      (by decide) "C" (by decide)
  · exact schedulers_prefer_smallest_eligible.2.1 (fun _ => some 1) [none] 0
      "B" ["C"] 1 (by decide) (by simp) rfl rfl
      (by intro j hj; exact absurd hj (Nat.not_lt_zero j))


/-- C6, amended: the code does not fail loudly on a malformed (cyclic)
graph.  The single-worker scheduler silently returns the truncated result,
and the multi-worker scheduler never terminates (in the fuel-bounded model
it returns `none` for every duration table and worker count). -/
theorem cyclic_graph_truncates_and_multiworker_diverges :
    (cyclicGraph.specific_topological_sort = [] ∧
      cyclicGraph.vertices.length = 2) ∧
    ∀ (dur : String → Option Int) (workers : Nat),
      cyclicGraph.multiworker_step_sort dur workers = none := by
  refine ⟨by decide, ?_⟩
  intro dur workers
  have heq : cyclicGraph.multiworker_step_sort dur workers
      = mwLoop cyclicGraph dur (cyclicGraph.mwFuel dur)
          ⟨[], cyclicGraph.initCounts,
            heapify (cyclicGraph.vertices.filter
              (fun v => cyclicGraph.initCounts v == 0)),
            List.replicate workers none, -1⟩ := rfl
  have havail : heapify (cyclicGraph.vertices.filter
      (fun v => cyclicGraph.initCounts v == 0)) = [] := by decide
  rw [heq, havail]
  exact mwLoop_stuck cyclicGraph dur (by decide) (cyclicGraph.mwFuel dur)
    cyclicGraph.initCounts workers (-1)

/-- C8, amended: a single-vertex graph yields exactly that vertex from both
schedulers; the multi-worker elapsed time equals the vertex duration entry
provided that entry is at least 1 (a step always occupies a worker for at
least one tick, so entries below 1 yield elapsed time 1 instead). -/
theorem single_vertex_schedulers (v : String) (dur : String → Option Int)
    (d : Int) (k : Nat) (hd : dur v = some d) (h1 : 1 ≤ d) :
    (Graph.empty.add_vertex v).specific_topological_sort = [v] ∧
    (Graph.empty.add_vertex v).multiworker_step_sort dur (k + 1)
      = some ([v], d) := by
  refine ⟨single_vertex_sort v, ?_⟩
  have heq : (Graph.empty.add_vertex v).multiworker_step_sort dur (k + 1)
      = mwLoop (Graph.empty.add_vertex v) dur
          ((Graph.empty.add_vertex v).mwFuel dur)
          ⟨[], (Graph.empty.add_vertex v).initCounts, [v],
            List.replicate (k + 1) none, -1⟩ := rfl
  have hfuel : (Graph.empty.add_vertex v).mwFuel dur = 3 + d.toNat := by
    simp [Graph.mwFuel, Graph.allSteps, single_vertex_adj, durNat, hd]
    omega
  have hguard : ([] : List String).length
      < (Graph.empty.add_vertex v).adj_list.length := by
    simp [single_vertex_adj]
  have htick : tick (Graph.empty.add_vertex v) dur
      ⟨[], (Graph.empty.add_vertex v).initCounts, [v],
        List.replicate (k + 1) none, -1⟩
      = some ⟨[], (Graph.empty.add_vertex v).initCounts, [],
          some (v, d) :: List.replicate k none, -1 + 1⟩ := by
    unfold tick
    rw [phase1_nones]
    rw [List.replicate_succ]
    simp only [phase2, hd, phase2_empty_avail]
    rfl
  have hstep : mwLoop (Graph.empty.add_vertex v) dur (3 + d.toNat)
        ⟨[], (Graph.empty.add_vertex v).initCounts, [v],
          List.replicate (k + 1) none, -1⟩
      = mwLoop (Graph.empty.add_vertex v) dur (2 + d.toNat)
        ⟨[], (Graph.empty.add_vertex v).initCounts, [],
          some (v, d) :: List.replicate k none, -1 + 1⟩ := by
    rw [show 3 + d.toNat = (2 + d.toNat) + 1 by omega]
    simp only [mwLoop]
    rw [if_pos hguard, htick]
  rw [heq, hfuel, hstep]
  have hres := single_countdown v dur k ((d - 1).toNat) d (by omega)
    (2 + d.toNat) (by omega) (-1 + 1) (Graph.empty.add_vertex v).initCounts
  rw [hres]
  norm_num

/-- C8 witness: the amended theorem at vertex Q, duration 7, three
workers. -/
theorem single_vertex_schedulers_witness :
    (Graph.empty.add_vertex "Q").specific_topological_sort = ["Q"] ∧
    (Graph.empty.add_vertex "Q").multiworker_step_sort (fun _ => some 7) 3
      = some (["Q"], 7) :=
  single_vertex_schedulers "Q" (fun _ => some 7) 7 2 rfl (by decide)


/-- C10: the duration table covers exactly the 26 uppercase letters, phase
2 aborts with a lookup error (Python KeyError) the moment a step without a
table entry is handed to an idle worker, and consequently the multi-worker
scheduler never returns a time for any well-formed graph containing a step
name that is not a single uppercase letter. -/
theorem nonuppercase_step_keyerror :
    (∀ (offset : Int) (s : String), s ∉ ascii_uppercase →
      lookupDur (get_step_durations ascii_uppercase offset) s = none) ∧
    (∀ (dur : String → Option Int) (prog : List (Option (String × Int)))
        (s : String) (rest : List String), dur s = none →
      phase2 dur (none :: prog) (s :: rest) = none) ∧
    (∀ (g : Graph) (offset : Int) (workers : Nat) (s : String),
      g.Wellformed → s ∈ g.vertices → s ∉ ascii_uppercase →
      g.multiworker_step_sort
          (lookupDur (get_step_durations ascii_uppercase offset)) workers
        = none) := by
  refine ⟨fun offset s hs => lookupDur_eq_none hs, ?_, ?_⟩
  · intro dur prog s rest hd
    simp [phase2, hd]
  · intro g offset workers s hw hsV hs
    rcases hres : g.multiworker_step_sort
        (lookupDur (get_step_durations ascii_uppercase offset)) workers
      with _ | r
    · rfl
    · exfalso
      have heq : mwLoop g (lookupDur (get_step_durations ascii_uppercase offset))
          (g.mwFuel (lookupDur (get_step_durations ascii_uppercase offset)))
          ⟨[], g.initCounts,
            heapify (g.vertices.filter (fun v => g.initCounts v == 0)),
            List.replicate workers none, -1⟩ = some r := hres
      have hall := mwLoop_some_complete hw
        (lookupDur (get_step_durations ascii_uppercase offset)) _ _ r heq
        (by
          rw [show busySteps (List.replicate workers none) = []
            from busySteps_replicate_none workers]
          exact GInv_initial hw)
        (by
          rw [show busySteps (List.replicate workers none) = []
            from busySteps_replicate_none workers]
          intro v hv
          cases hv)
        (by intro v hv; cases hv)
      have hsome := hall s hsV
      rw [lookupDur_eq_none hs] at hsome
      cases hsome

/-- C10 witness: the lowercase step name a has no table entry, phase 2
fails on it, and the scheduler returns no time for a graph containing
it. -/
theorem nonuppercase_step_keyerror_witness :
    lookupDur (get_step_durations ascii_uppercase 61) "a" = none ∧
      phase2 (fun _ => none) (none :: []) ("a" :: []) = none ∧
      (build_dependency_graph [("a", "B")]).multiworker_step_sort
        (lookupDur (get_step_durations ascii_uppercase 61)) 5 = none :=
  ⟨nonuppercase_step_keyerror.1 61 "a" (by decide),
    nonuppercase_step_keyerror.2.1 (fun _ => none) [] "a" [] rfl,
    nonuppercase_step_keyerror.2.2 (build_dependency_graph [("a", "B")]) 61 5
      "a" (by decide) (by decide) (by decide)⟩

end Day07
namespace Day07

/-- C3: with a single worker, the multi-worker scheduler completes the
steps in exactly the order of the single-worker scheduler, for every
well-formed acyclic graph and every duration table that covers the
vertices. -/
theorem multiworker_one_worker_eq_specific {g : Graph} (hw : g.Wellformed)
    (hacyc : g.Acyclic) (dur : String → Option Int)
    (hdur : ∀ v ∈ g.vertices, (dur v).isSome) :
    ∃ t : Int, g.multiworker_step_sort dur 1
      = some (g.specific_topological_sort, t) := by
  obtain ⟨l, hl⟩ := hacyc
  have heq : g.multiworker_step_sort dur 1
      = mwLoop g dur (g.mwFuel dur)
          ⟨[], g.initCounts,
            heapify (g.vertices.filter (fun v => g.initCounts v == 0)),
            [none], -1⟩ := rfl
  have hspec : g.specific_topological_sort
      = sortLoop g g.sortFuel g.initCounts
          (heapify (g.vertices.filter (fun v => g.initCounts v == 0))) [] := rfl
  by_cases hadj : g.adj_list.length = 0
  · have hfuel1 : 1 ≤ g.mwFuel dur := by
      unfold Graph.mwFuel
      omega
    rcases Nat.exists_eq_add_of_le hfuel1 with ⟨m, hm⟩
    refine ⟨-1, ?_⟩
    rw [heq, hm, show 1 + m = m + 1 by omega]
    simp only [mwLoop]
    rw [if_neg (by simp only [List.length_nil]; omega)]
    have hv : g.vertices = [] := by
      have hvl : g.vertices.length = 0 := by
        rw [vertices_length]
        exact hadj
      exact List.length_eq_zero.mp hvl
    have hsp : g.specific_topological_sort = [] := by
      rw [hspec, hv]
      cases hsf : g.sortFuel <;> rfl
    rw [hsp]
  · have hinv0 := Inv_initial hw
    rcases havail : heapify (g.vertices.filter (fun v => g.initCounts v == 0))
      with _ | ⟨v, rest⟩
    · exfalso
      rw [havail] at hinv0
      have hfull := complete_of_acyclic hw hl hinv0
      have hvl : g.vertices.length = 0 := by
        cases hvv : g.vertices with
        | nil => simp
        | cons x xs =>
            exact absurd (hfull x (by rw [hvv]; exact List.mem_cons_self x xs))
              (List.not_mem_nil x)
      rw [vertices_length] at hvl
      omega
    · rw [havail] at hinv0
      have hvV : v ∈ g.vertices :=
        (hinv0.2.2.2.2.1 v (List.mem_cons_self v rest)).1
      rcases Option.isSome_iff_exists.mp (hdur v hvV) with ⟨d, hd⟩
      have htick : tick g dur ⟨[], g.initCounts,
            heapify (g.vertices.filter (fun v => g.initCounts v == 0)),
            [none], -1⟩
          = some ⟨[], g.initCounts, rest, [some (v, d)], -1 + 1⟩ := by
        simp only [tick, phase1]
        rw [havail]
        simp only [phase2, hd]
        rfl
      have hdn : durNat dur v = d.toNat := by
        unfold durNat
        rw [hd]
      have hfuelbig : d.toNat + 2 + pendSum g dur [] v + 1 ≤ g.mwFuel dur := by
        have hinit := pendSum_init hw dur hvV
        rw [hdn] at hinit
        unfold Graph.mwFuel
        omega
      rcases Nat.exists_eq_add_of_le (show 1 ≤ g.mwFuel dur by omega)
        with ⟨m, hm⟩
      have hstep : mwLoop g dur (g.mwFuel dur)
            ⟨[], g.initCounts,
              heapify (g.vertices.filter (fun v => g.initCounts v == 0)),
              [none], -1⟩
          = mwLoop g dur m ⟨[], g.initCounts, rest, [some (v, d)], -1 + 1⟩ := by
        rw [hm, show 1 + m = m + 1 by omega]
        simp only [mwLoop]
        rw [if_pos (by simp only [List.length_nil]; omega), htick]
      have hsfk : g.adj_list.length ≤ g.sortFuel + ([] : List String).length := by
        unfold Graph.sortFuel
        simp only [List.length_nil]
        omega
      have hcore := mw_one_worker_core hw hl dur hdur m g.initCounts rest []
        v d (-1 + 1) hinv0 (by omega) g.sortFuel hsfk
      rcases hmw : mwLoop g dur m ⟨[], g.initCounts, rest, [some (v, d)], -1 + 1⟩
        with _ | ⟨ord, tt⟩
      · rw [hmw] at hcore
        simp at hcore
      · rw [hmw] at hcore
        have hord : ord = sortLoop g g.sortFuel g.initCounts (v :: rest) [] := by
          simpa using hcore
        refine ⟨tt, ?_⟩
        rw [heq, hstep, hmw, hspec, havail, ← hord]

/-- C3 witness: the theorem applied to the worked-example graph with the
offset-1 duration table; the single worker serializes to CABDFE. -/
theorem multiworker_one_worker_eq_specific_witness :
    ∃ t : Int, testGraph.multiworker_step_sort
        (lookupDur (get_step_durations ascii_uppercase 1)) 1
      = some (testGraph.specific_topological_sort, t) :=
  multiworker_one_worker_eq_specific (by decide)
    ⟨["C", "A", "B", "D", "F", "E"], by decide⟩
    (lookupDur (get_step_durations ascii_uppercase 1)) (by decide)

end Day07
